import Mathlib

/-!
# strexp: segmented string expressions

A shallow embedding of the Go package `strexp` (`parser.go`, `tokens.go`,
`strexp.go`) and theorems about it.

Modelling conventions.

* A Go `string` is a sequence of bytes; it is embedded as `Str := List Nat`, one
  number per byte.  The code only compares bytes with constants and never does
  arithmetic on them, so no wrap-around has to be modelled.
* `str[i]`, `str[a:b]` and `str[a:]` panic in Go when out of range; they are
  embedded as `index`, `slice` and `sliceFrom`, which return `none` there, and
  every function that uses them returns an `Exec`, whose constructor `panic`
  stands for the run-time panic.
* A Go `error` is embedded as `Option Str`: `none` is `nil`, `some msg` is
  `errors.New(msg)`.
* The recursion `pExprGroup → pToken → pGroup → pExprGroup` is embedded with a
  fuel counter on `pExprGroup`; `Parse` supplies `len(str) + 1`, and
  `pExprGroup_fuel_irrelevant` shows that any larger amount gives the same result.
* `regexp.QuoteMeta` and `regexp.Compile` belong to the Go standard library:
  the first is embedded from its documentation, the second is the parameter `E`
  of `Compile`.
-/

namespace Strexp

/-- A Go string: its bytes. -/
abbrev Str := List Nat

/-- The bytes of an ASCII string constant of the source. -/
def lit (s : String) : Str := s.toList.map Char.toNat

/-- Outcome of running a Go function: a normal return, a run-time panic
(index or slice bounds out of range), or exhaustion of the fuel of the model. -/
inductive Exec (α : Type) where
  | ret (a : α) : Exec α
  | panic : Exec α
  | fuel : Exec α
  deriving Repr, DecidableEq

/-- Go `str[i]`. -/
def index (str : Str) (i : Nat) : Option Nat := str.get? i

/-- Go `str[a:b]`. -/
def slice (str : Str) (a b : Nat) : Option Str :=
  if a ≤ b ∧ b ≤ str.length then some ((str.drop a).take (b - a)) else none

/-- Go `str[a:]`. -/
def sliceFrom (str : Str) (a : Nat) : Option Str :=
  if a ≤ str.length then some (str.drop a) else none

/-! ## tokens.go, strexp.go -/

/-- The `Token` interface with its five implementations. -/
inductive Token where
  | tList (items : List Token) : Token
  | tGroup (item : Token) : Token
  | tParam (name : Str) : Token
  | tGlob (name : Str) : Token
  | tChar (char : Str) : Token
  deriving Repr

/-- The struct `StrExpConfig` behind a non-nil `*StrExpConfig`; the Go map
`requirements` is its lookup function. -/
structure StrExpConfig where
  requirements : Str → Option Str
  separators : Str

/-- `StrExpConfig.hasPattern`. -/
def StrExpConfig.hasPattern (self : StrExpConfig) (name : Str) : Bool :=
  (self.requirements name).isSome

/-- `StrExpConfig.patternForName`. -/
def StrExpConfig.patternForName (self : StrExpConfig) (name : Str) : Str :=
  match self.requirements name with
  | some p => p
  | none =>
    if self.separators.length > 0 then
      lit "[^" ++ self.separators ++ lit "]+"
    else
      lit ".+"

/-- The bytes that `regexp.QuoteMeta` of the Go standard library escapes:
`\.+*?()|[]{}^$`. -/
def specialBytes : List Nat := [92, 46, 43, 42, 63, 40, 41, 124, 91, 93, 123, 125, 94, 36]

/-- `regexp.QuoteMeta` of the Go standard library: a backslash before every
special byte. -/
def QuoteMeta : Str → Str
  | [] => []
  | b :: bs => if b ∈ specialBytes then 92 :: b :: QuoteMeta bs else b :: QuoteMeta bs

/-- The table `reserved` of `pChar` and `tChar.String`: `( ) * : \`. -/
def reserved : List Nat := [40, 41, 42, 58, 92]

mutual
/-- `RegExpFragment` of the five token types. -/
def Token.RegExpFragment : Token → StrExpConfig → Str
  | .tList items, c => RegExpFragmentItems items c
  | .tGroup item, c => lit "(?:" ++ item.RegExpFragment c ++ lit ")?"
  | .tParam name, c =>
    let pattern := c.patternForName name
    lit "(?<" ++ name ++ lit ">" ++ pattern ++ lit ")"
  | .tGlob name, c =>
    let pattern := c.patternForName name
    let pattern := if !c.hasPattern name then lit ".+" else pattern
    lit "(?<" ++ name ++ lit ">" ++ pattern ++ lit ")"
  | .tChar char, _ => QuoteMeta char
/-- The loop of `tList.RegExpFragment`. -/
def RegExpFragmentItems : List Token → StrExpConfig → Str
  | [], _ => []
  | i :: rest, c => i.RegExpFragment c ++ RegExpFragmentItems rest c
end

mutual
/-- `String` of the five token types; `tChar.String` reads `self.char[0]`. -/
def Token.String : Token → Exec Str
  | .tList items => StringItems items
  | .tGroup item =>
    match item.String with
    | .ret s => .ret (lit "(" ++ s ++ lit ")")
    | .panic => .panic
    | .fuel => .fuel
  | .tParam name => .ret (lit ":" ++ name)
  | .tGlob name => .ret (lit "*" ++ name)
  | .tChar char =>
    match index char 0 with
    | none => .panic
    | some c0 => if c0 ∈ reserved then .ret (lit "\\" ++ char) else .ret char
/-- The loop of `tList.String`. -/
def StringItems : List Token → Exec Str
  | [] => .ret []
  | i :: rest =>
    match i.String with
    | .ret s =>
      match StringItems rest with
      | .ret r => .ret (s ++ r)
      | .panic => .panic
      | .fuel => .fuel
    | .panic => .panic
    | .fuel => .fuel
end

/-! ## parser.go -/

/-- What a parsing function returns: `(result, remainder, error)`. -/
abbrev PResult := Token × Str × Option Str

/-- The test of `pName` on one byte. -/
def isNameByte (b : Nat) : Bool :=
  (b > 65 && b < 91) || (b > 96 && b < 123) || b == 95

/-- The loop of `pName`: returns `(name, str)` at the `break`. -/
def pNameLoop : Str → Str → Str × Str
  | name, [] => (name, [])
  | name, b :: str =>
    if isNameByte b then pNameLoop (name ++ [b]) str else (name, b :: str)

/-- `pName`. -/
def pName (str : Str) : Exec (Str × Str × Option Str) :=
  match pNameLoop [] str with
  | (name, str) =>
    if name.length = 0 then
      match slice str 0 1 with
      | none => .panic
      | some c =>
        .ret ([], str, some (lit "unexpected character: '" ++ c ++ lit "', expected identifier."))
    else
      .ret (name, str, none)

/-- `pExpect`. -/
def pExpect (str : Str) (char : Str) : Str × Option Str :=
  if !char.isPrefixOf str then
    if str.length < char.length then
      (str, some (lit "unexpected end, expected '" ++ char ++ lit "'."))
    else
      (str, some (lit "unexpected character: '" ++ str.take char.length ++ lit "', expected '"
        ++ char ++ lit "'."))
  else
    (str.drop char.length, none)

/-- `pParam`. -/
def pParam (str : Str) : Exec PResult :=
  match pExpect str (lit ":") with
  | (str, some err) => .ret (.tList [], str, some err)
  | (str, none) =>
    match pName str with
    | .ret (_, str, some err) => .ret (.tList [], str, some err)
    | .ret (name, str, none) => .ret (.tParam name, str, none)
    | .panic => .panic
    | .fuel => .fuel

/-- `pGlob`. -/
def pGlob (str : Str) : Exec PResult :=
  match pExpect str (lit "*") with
  | (str, some err) => .ret (.tList [], str, some err)
  | (str, none) =>
    match pName str with
    | .ret (_, str, some err) => .ret (.tList [], str, some err)
    | .ret (name, str, none) => .ret (.tGlob name, str, none)
    | .panic => .panic
    | .fuel => .fuel

/-- `pGroup`; `rec` is the call of `pExprGroup`. -/
def pGroup (rec : Str → Exec PResult) (str : Str) : Exec PResult :=
  match pExpect str (lit "(") with
  | (s, some err) => .ret (.tList [], s, some err)
  | (s, none) =>
    match rec s with
    | .ret (_, s, some err) => .ret (.tList [], s, some err)
    | .ret (t, s, none) =>
      match pExpect s (lit ")") with
      | (s, some err) => .ret (.tList [], s, some err)
      | (s, none) => .ret (.tGroup t, s, none)
    | .panic => .panic
    | .fuel => .fuel

/-- `pChar`. -/
def pChar (str : Str) : Exec PResult :=
  match index str 0 with
  | none => .panic
  | some c0 =>
    if c0 = 92 then
      match index str 1 with
      | none => .panic
      | some c1 =>
        if c1 ∈ reserved then
          match slice str 1 1, sliceFrom str 2 with
          | some char, some rest => .ret (.tChar char, rest, none)
          | _, _ => .panic
        else
          match slice str 1 1 with
          | some char =>
            .ret (.tList [], str, some (lit "Invalid escape-sequence '\\" ++ char
              ++ lit "', expected one of '\\(', '\\)', '\\*', '\\:' or '\\\\'."))
          | none => .panic
    else if c0 ∈ reserved then
      match slice str 0 1 with
      | some char =>
        .ret (.tList [], str, some (lit "Unexpected special character '" ++ char
          ++ lit "', missing escaping."))
      | none => .panic
    else
      match slice str 0 1, sliceFrom str 1 with
      | some char, some rest => .ret (.tChar char, rest, none)
      | _, _ => .panic

/-- `pToken`; `rec` is the call of `pExprGroup` made by `pGroup`. -/
def pToken (rec : Str → Exec PResult) (str : Str) : Exec PResult :=
  match pExpect str (lit ":") with
  | (_, none) =>
    match pParam str with
    | .ret (t, s, none) => .ret (t, s, none)
    | .ret (_, s, some err) => .ret (.tList [], s, some err)
    | .panic => .panic
    | .fuel => .fuel
  | (_, some _) =>
    match pExpect str (lit "*") with
    | (_, none) =>
      match pGlob str with
      | .ret (t, s, none) => .ret (t, s, none)
      | .ret (_, s, some err) => .ret (.tList [], s, some err)
      | .panic => .panic
      | .fuel => .fuel
    | (_, some _) =>
      match pExpect str (lit "(") with
      | (_, none) =>
        match pGroup rec str with
        | .ret (t, s, none) => .ret (t, s, none)
        | .ret (_, s, some err) => .ret (.tList [], s, some err)
        | .panic => .panic
        | .fuel => .fuel
      | (_, some _) =>
        match pChar str with
        | .ret (t, s, none) => .ret (t, s, none)
        | .ret (_, _, some err) => .ret (.tList [], str, some err)
        | .panic => .panic
        | .fuel => .fuel

/-- The loop of `pExprGroup`, entered with remainder `s` and the tokens
appended so far; the first argument bounds the number of iterations and of
nested calls. -/
def pExprGroupLoop : Nat → Str → List Token → Exec PResult
  | 0, _, _ => .fuel
  | n + 1, s, tokens =>
    if s.length = 0 then .ret (.tList tokens, s, none)
    else
      match pExpect s (lit ")") with
      | (_, none) => .ret (.tList tokens, s, none)
      | (_, some _) =>
        match pToken (fun str => pExprGroupLoop n str []) s with
        | .ret (_, _, some err) => .ret (.tList [], [], some err)
        | .ret (t, s, none) => pExprGroupLoop n s (tokens ++ [t])
        | .panic => .panic
        | .fuel => .fuel

/-- `pExprGroup`, with fuel. -/
def pExprGroup (n : Nat) (str : Str) : Exec PResult :=
  pExprGroupLoop n str []

/-- `Parse`. -/
def Parse (str : Str) : Exec (Token × Option Str) :=
  match pExprGroup (str.length + 1) str with
  | .ret (t, s, err) =>
    let err := if err.isNone && s.length != 0 then some (lit "Unmatched ')'.") else err
    match err with
    | some e =>
      match slice str 0 (str.length - s.length) with
      | some p => .ret (.tList [], some (lit "strexp parse error: after '" ++ p ++ lit "': " ++ e))
      | none => .panic
    | none => .ret (t, none)
  | .panic => .panic
  | .fuel => .fuel

/-! ## Trees that are rendered and parsed again -/

/-- The characters `[A-Za-z_]` of a name. -/
def isIdentByte (b : Nat) : Bool :=
  (65 ≤ b && b ≤ 90) || (97 ≤ b && b ≤ 122) || b == 95

mutual
/-- A tree built from the constructs named valid: lists, groups whose item is
a list, parameters and globs with a non-empty name over `[A-Za-z_]`, literals
of one character. -/
def Token.valid : Token → Bool
  | .tList items => validItems items
  | .tGroup item => (match item with | .tList _ => true | _ => false) && item.valid
  | .tParam name => !name.isEmpty && name.all isIdentByte
  | .tGlob name => !name.isEmpty && name.all isIdentByte
  | .tChar char => char.length == 1
/-- Every item of a list is valid. -/
def validItems : List Token → Bool
  | [] => true
  | i :: rest => i.valid && validItems rest
end

/-- A name that `pName` reads back: not empty, every byte passes its test. -/
def nameOK (name : Str) : Bool := !name.isEmpty && name.all isNameByte

/-- The text after a name does not go on with a character of `[A-Za-z_]`. -/
def followOK : Str → Bool
  | [] => true
  | b :: _ => !isIdentByte b

mutual
/-- A tree whose rendering, followed by the text `next`, is read back token by
token: names pass `nameOK` and are not followed by a name character, literals
hold one character that is not reserved.  The item of a group is followed by
the closing parenthesis, which ends a name as the end of the text does. -/
def Token.validBefore : Token → Str → Bool
  | .tList items, next => validItemsBefore items next
  | .tGroup item, _ => item.validBefore []
  | .tParam name, next => nameOK name && followOK next
  | .tGlob name, next => nameOK name && followOK next
  | .tChar char, _ =>
    match char with
    | [b] => !reserved.contains b
    | _ => false
/-- The items of a list, each one before the rendering of the items after it. -/
def validItemsBefore : List Token → Str → Bool
  | [], _ => true
  | i :: rest, next =>
    (match StringItems rest with
     | .ret r => i.validBefore (r ++ next)
     | _ => false) && validItemsBefore rest next
end

mutual
/-- The tokens that the loop of `pExprGroup` appends for the rendering of a
tree: nested lists are spliced, the item of a group becomes a list. -/
def Token.flatten : Token → List Token
  | .tList items => flattenItems items
  | .tGroup item => [.tGroup (.tList item.flatten)]
  | .tParam name => [.tParam name]
  | .tGlob name => [.tGlob name]
  | .tChar char => [.tChar char]
/-- `Token.flatten` of every item, in order. -/
def flattenItems : List Token → List Token
  | [] => []
  | i :: rest => i.flatten ++ flattenItems rest
end

/-! ## Compile, with the engine as a function -/

/-- `Compile`; `E` is `regexp.Compile` of the Go standard library, which
returns a pattern (or `nil`) and an error. -/
def Compile {ρ : Type} (E : Str → Option ρ × Option Str) (strexp : Str) (c : StrExpConfig) :
    Exec (Option ρ × Option Str) :=
  match Parse strexp with
  | .ret (_, some err) => .ret (none, some err)
  | .ret (t, none) =>
    let r := t.RegExpFragment c
    .ret (E (lit "^" ++ r ++ lit "$"))
  | .panic => .panic
  | .fuel => .fuel

/-! ## The text before a token -/

/-- A text of complete tokens, possibly after the opening parentheses of
groups that are not closed yet: `u`, or `u(p`, where `Parse u` returns a token
and `p` is such a text again. -/
inductive TokensRead : Str → Prop where
  | tokens (u : Str) (t : Token) (h : Parse u = .ret (t, none)) : TokensRead u
  | group (u p : Str) (t : Token) (h : Parse u = .ret (t, none)) (hp : TokensRead p) :
    TokensRead (u ++ lit "(" ++ p)

/-! ## Names in a tree -/

mutual
/-- The tree contains a `tParam` with the given name. -/
def Token.hasParam (name : Str) : Token → Bool
  | .tList items => hasParamItems name items
  | .tGroup item => item.hasParam name
  | .tParam n => n == name
  | .tGlob _ => false
  | .tChar _ => false
/-- One of the items contains a `tParam` with the given name. -/
def hasParamItems (name : Str) : List Token → Bool
  | [] => false
  | i :: rest => i.hasParam name || hasParamItems name rest
end

mutual
/-- The number of `tParam` and `tGlob` with the given name in the tree. -/
def Token.uses (name : Str) : Token → Nat
  | .tList items => usesItems name items
  | .tGroup item => item.uses name
  | .tParam n => if n = name then 1 else 0
  | .tGlob n => if n = name then 1 else 0
  | .tChar _ => 0
/-- The sum of `Token.uses` over the items. -/
def usesItems (name : Str) : List Token → Nat
  | [] => 0
  | i :: rest => i.uses name + usesItems name rest
end

mutual
/-- Every `tParam` and `tGlob` of the tree has a non-empty name over
`[A-Za-z_]`, and the item of every `tGroup` is a `tList`. -/
def Token.namesValid : Token → Bool
  | .tList items => namesValidItems items
  | .tGroup item => (match item with | .tList _ => true | _ => false) && item.namesValid
  | .tParam name => !name.isEmpty && name.all isIdentByte
  | .tGlob name => !name.isEmpty && name.all isIdentByte
  | .tChar _ => true
/-- `Token.namesValid` of every item. -/
def namesValidItems : List Token → Bool
  | [] => true
  | i :: rest => i.namesValid && namesValidItems rest
end

/-! ## The parser with the call of `pChar` as a parameter -/

/-- `pToken` with `pc` called where `pToken` calls `pChar`. -/
def pTokenWith (pc : Str → Exec PResult) (rec : Str → Exec PResult) (str : Str) :
    Exec PResult :=
  match pExpect str (lit ":") with
  | (_, none) =>
    match pParam str with
    | .ret (t, s, none) => .ret (t, s, none)
    | .ret (_, s, some err) => .ret (.tList [], s, some err)
    | .panic => .panic
    | .fuel => .fuel
  | (_, some _) =>
    match pExpect str (lit "*") with
    | (_, none) =>
      match pGlob str with
      | .ret (t, s, none) => .ret (t, s, none)
      | .ret (_, s, some err) => .ret (.tList [], s, some err)
      | .panic => .panic
      | .fuel => .fuel
    | (_, some _) =>
      match pExpect str (lit "(") with
      | (_, none) =>
        match pGroup rec str with
        | .ret (t, s, none) => .ret (t, s, none)
        | .ret (_, s, some err) => .ret (.tList [], s, some err)
        | .panic => .panic
        | .fuel => .fuel
      | (_, some _) =>
        match pc str with
        | .ret (t, s, none) => .ret (t, s, none)
        | .ret (_, _, some err) => .ret (.tList [], str, some err)
        | .panic => .panic
        | .fuel => .fuel

/-- The loop of `pExprGroup` over `pTokenWith pc`. -/
def pExprGroupLoopWith (pc : Str → Exec PResult) : Nat → Str → List Token → Exec PResult
  | 0, _, _ => .fuel
  | n + 1, s, tokens =>
    if s.length = 0 then .ret (.tList tokens, s, none)
    else
      match pExpect s (lit ")") with
      | (_, none) => .ret (.tList tokens, s, none)
      | (_, some _) =>
        match pTokenWith pc (fun str => pExprGroupLoopWith pc n str []) s with
        | .ret (_, _, some err) => .ret (.tList [], [], some err)
        | .ret (t, s, none) => pExprGroupLoopWith pc n s (tokens ++ [t])
        | .panic => .panic
        | .fuel => .fuel

/-- The errors that `pExprGroup` returns: of `pName`, of the second `pExpect`
of `pGroup` at the end of the input, and of an escape sequence in `pChar`. -/
def IsCause (e : Str) : Prop :=
  (∃ x : Nat, e = lit "unexpected character: '" ++ [x] ++ lit "', expected identifier.")
  ∨ e = lit "unexpected end, expected ')'."
  ∨ e = lit "Invalid escape-sequence '\\', expected one of '\\(', '\\)', '\\*', '\\:' or '\\\\'."

/-! ## Basic facts -/

theorem lit_colon : lit ":" = [58] := rfl
theorem lit_star : lit "*" = [42] := rfl
theorem lit_open : lit "(" = [40] := rfl
theorem lit_close : lit ")" = [41] := rfl

theorem pExpect_nil (c : Nat) :
    pExpect [] [c] = ([], some (lit "unexpected end, expected '" ++ [c] ++ lit "'.")) := by
  simp [pExpect, List.isPrefixOf]

theorem pExpect_cons_self (c : Nat) (s : Str) : pExpect (c :: s) [c] = (s, none) := by
  simp [pExpect, List.isPrefixOf]

theorem pExpect_cons_ne {b c : Nat} (s : Str) (h : b ≠ c) :
    pExpect (b :: s) [c] = (b :: s, some (lit "unexpected character: '" ++ [b]
      ++ lit "', expected '" ++ [c] ++ lit "'.")) := by
  have h2 : ¬ c = b := fun e => h e.symm
  simp [pExpect, List.isPrefixOf, h2]

theorem pNameLoop_eq (name str : Str) :
    pNameLoop name str = (name ++ str.takeWhile isNameByte, str.dropWhile isNameByte) := by
  induction str generalizing name with
  | nil => simp [pNameLoop]
  | cons b s ih =>
    by_cases hb : isNameByte b = true
    · simp [pNameLoop, hb, ih, List.takeWhile, List.dropWhile]
    · simp [pNameLoop, hb, List.takeWhile, List.dropWhile]

theorem pName_nil : pName [] = .panic := rfl

theorem pName_cons_not {b : Nat} (s : Str) (h : isNameByte b = false) :
    pName (b :: s) = .ret ([], b :: s,
      some (lit "unexpected character: '" ++ [b] ++ lit "', expected identifier.")) := by
  simp [pName, pNameLoop, h, slice]

theorem pName_cons_name {b : Nat} (s : Str) (h : isNameByte b = true) :
    pName (b :: s) = .ret (b :: s.takeWhile isNameByte, s.dropWhile isNameByte, none) := by
  simp [pName, pNameLoop_eq, List.takeWhile, List.dropWhile, h]

/-! ## `pToken` by the first byte -/

theorem pToken_nil (rec : Str → Exec PResult) : pToken rec [] = .panic := by
  simp [pToken, lit_colon, lit_star, lit_open, pExpect_nil, pChar, index]

theorem pToken_colon (rec : Str → Exec PResult) (s : Str) :
    pToken rec (58 :: s) =
      match pName s with
      | .ret (_, s, some err) => .ret (.tList [], s, some err)
      | .ret (name, s, none) => .ret (.tParam name, s, none)
      | .panic => .panic
      | .fuel => .fuel := by
  simp only [pToken, pParam, lit_colon, pExpect_cons_self]
  rcases h : pName s with ⟨name, s2, _ | err⟩ | _ | _ <;> simp

theorem pToken_star (rec : Str → Exec PResult) (s : Str) :
    pToken rec (42 :: s) =
      match pName s with
      | .ret (_, s, some err) => .ret (.tList [], s, some err)
      | .ret (name, s, none) => .ret (.tGlob name, s, none)
      | .panic => .panic
      | .fuel => .fuel := by
  have h1 : (42 : Nat) ≠ 58 := by decide
  simp only [pToken, pGlob, lit_colon, lit_star, pExpect_cons_self, pExpect_cons_ne _ h1]
  rcases h : pName s with ⟨name, s2, _ | err⟩ | _ | _ <;> simp

theorem pToken_open (rec : Str → Exec PResult) (s : Str) :
    pToken rec (40 :: s) =
      match rec s with
      | .ret (_, s, some err) => .ret (.tList [], s, some err)
      | .ret (t, s, none) =>
        match pExpect s [41] with
        | (s, some err) => .ret (.tList [], s, some err)
        | (s, none) => .ret (.tGroup t, s, none)
      | .panic => .panic
      | .fuel => .fuel := by
  have h1 : (40 : Nat) ≠ 58 := by decide
  have h2 : (40 : Nat) ≠ 42 := by decide
  simp only [pToken, pGroup, lit_colon, lit_star, lit_open, lit_close, pExpect_cons_self,
    pExpect_cons_ne _ h1, pExpect_cons_ne _ h2]
  rcases h : rec s with ⟨t, s2, _ | err⟩ | _ | _
  · simp only []
    rcases h' : pExpect s2 [41] with ⟨s3, _ | err⟩ <;> simp
  · simp
  · simp
  · simp

theorem pToken_other (rec : Str → Exec PResult) {b : Nat} (s : Str)
    (h1 : b ≠ 58) (h2 : b ≠ 42) (h3 : b ≠ 40) :
    pToken rec (b :: s) =
      match pChar (b :: s) with
      | .ret (t, s, none) => .ret (t, s, none)
      | .ret (_, _, some err) => .ret (.tList [], b :: s, some err)
      | .panic => .panic
      | .fuel => .fuel := by
  simp only [pToken, lit_colon, lit_star, lit_open, pExpect_cons_ne _ h1, pExpect_cons_ne _ h2,
    pExpect_cons_ne _ h3]

theorem pChar_plain {b : Nat} (s : Str) (h : b ∉ reserved) :
    pChar (b :: s) = .ret (.tChar [b], s, none) := by
  have h92 : b ≠ 92 := by
    intro e; apply h; simp [e, reserved]
  simp [pChar, index, h92, h, slice, sliceFrom]

theorem pChar_escape {c : Nat} (s : Str) (h : c ∈ reserved) :
    pChar (92 :: c :: s) = .ret (.tChar [], s, none) := by
  simp [pChar, index, h, slice, sliceFrom]

theorem pChar_escape_end : pChar [92] = .panic := by
  simp [pChar, index]

theorem pChar_escape_invalid {c : Nat} (s : Str) (h : c ∉ reserved) :
    pChar (92 :: c :: s) = .ret (.tList [], 92 :: c :: s,
      some (lit "Invalid escape-sequence '\\"
        ++ lit "', expected one of '\\(', '\\)', '\\*', '\\:' or '\\\\'.")) := by
  simp [pChar, index, h, slice]

theorem pToken_plain (rec : Str → Exec PResult) {b : Nat} (s : Str) (h : b ∉ reserved) :
    pToken rec (b :: s) = .ret (.tChar [b], s, none) := by
  have h1 : b ≠ 58 := by intro e; apply h; simp [e, reserved]
  have h2 : b ≠ 42 := by intro e; apply h; simp [e, reserved]
  have h3 : b ≠ 40 := by intro e; apply h; simp [e, reserved]
  rw [pToken_other rec s h1 h2 h3, pChar_plain s h]

theorem pToken_escape (rec : Str → Exec PResult) {c : Nat} (s : Str) (h : c ∈ reserved) :
    pToken rec (92 :: c :: s) = .ret (.tChar [], s, none) := by
  rw [pToken_other rec _ (by decide) (by decide) (by decide), pChar_escape s h]

theorem pToken_escape_end (rec : Str → Exec PResult) : pToken rec [92] = .panic := by
  rw [pToken_other rec _ (by decide) (by decide) (by decide), pChar_escape_end]

theorem pToken_escape_invalid (rec : Str → Exec PResult) {c : Nat} (s : Str)
    (h : c ∉ reserved) :
    pToken rec (92 :: c :: s) = .ret (.tList [], 92 :: c :: s,
      some (lit "Invalid escape-sequence '\\"
        ++ lit "', expected one of '\\(', '\\)', '\\*', '\\:' or '\\\\'.")) := by
  rw [pToken_other rec _ (by decide) (by decide) (by decide), pChar_escape_invalid s h]

theorem pToken_close (rec : Str → Exec PResult) (s : Str) :
    pToken rec (41 :: s) = .ret (.tList [], 41 :: s,
      some (lit "Unexpected special character '" ++ [41] ++ lit "', missing escaping.")) := by
  rw [pToken_other rec _ (by decide) (by decide) (by decide)]
  simp [pChar, index, reserved, slice]

theorem byte_cases (b : Nat) :
    b = 58 ∨ b = 42 ∨ b = 40 ∨ b = 41 ∨ b = 92 ∨ b ∉ reserved := by
  by_cases h : b ∈ reserved
  · simp [reserved] at h
    omega
  · exact Or.inr (Or.inr (Or.inr (Or.inr (Or.inr h))))

/-! ## The loop of `pExprGroup` -/

theorem loop_nil (n : Nat) (tokens : List Token) :
    pExprGroupLoop (n + 1) [] tokens = .ret (.tList tokens, [], none) := by
  simp [pExprGroupLoop]

theorem loop_close (n : Nat) (s : Str) (tokens : List Token) :
    pExprGroupLoop (n + 1) (41 :: s) tokens = .ret (.tList tokens, 41 :: s, none) := by
  simp [pExprGroupLoop, lit_close, pExpect_cons_self]

theorem loop_step (n : Nat) {b : Nat} (s : Str) (tokens : List Token) (h : b ≠ 41) :
    pExprGroupLoop (n + 1) (b :: s) tokens =
      match pToken (fun str => pExprGroupLoop n str []) (b :: s) with
      | .ret (_, _, some err) => .ret (.tList [], [], some err)
      | .ret (t, s, none) => pExprGroupLoop n s (tokens ++ [t])
      | .panic => .panic
      | .fuel => .fuel := by
  simp [pExprGroupLoop, lit_close, pExpect_cons_ne _ h]

/-- `pToken` looks at `rec` only on the text after an opening parenthesis. -/
theorem pToken_congr {rec rec2 : Str → Exec PResult} (b : Nat) (s : Str)
    (h : b = 40 → rec s = rec2 s) : pToken rec (b :: s) = pToken rec2 (b :: s) := by
  by_cases h1 : b = 58
  · subst h1; rw [pToken_colon, pToken_colon]
  by_cases h2 : b = 42
  · subst h2; rw [pToken_star, pToken_star]
  by_cases h3 : b = 40
  · subst h3; rw [pToken_open, pToken_open, h rfl]
  · rw [pToken_other rec s h1 h2 h3, pToken_other rec2 s h1 h2 h3]

theorem pToken_fuel {rec : Str → Exec PResult} {b : Nat} {s : Str}
    (h : pToken rec (b :: s) = .fuel) : b = 40 ∧ rec s = .fuel := by
  rcases byte_cases b with h1 | h1 | h1 | h1 | h1 | h1
  · subst h1
    rw [pToken_colon] at h
    cases s with
    | nil => simp [pName_nil] at h
    | cons c s =>
      by_cases hc : isNameByte c = true
      · simp [pName_cons_name s hc] at h
      · simp [pName_cons_not s (by simpa using hc)] at h
  · subst h1
    rw [pToken_star] at h
    cases s with
    | nil => simp [pName_nil] at h
    | cons c s =>
      by_cases hc : isNameByte c = true
      · simp [pName_cons_name s hc] at h
      · simp [pName_cons_not s (by simpa using hc)] at h
  · subst h1
    refine ⟨rfl, ?_⟩
    rw [pToken_open] at h
    rcases h2 : rec s with ⟨t, s2, _ | err⟩ | _ | _
    · rw [h2] at h
      simp only [] at h
      rcases h3 : pExpect s2 [41] with ⟨s3, _ | err⟩ <;> rw [h3] at h <;> simp at h
    · rw [h2] at h; simp at h
    · rw [h2] at h; simp at h
    · rfl
  · subst h1; simp [pToken_close] at h
  · subst h1
    cases s with
    | nil => simp [pToken_escape_end] at h
    | cons c s =>
      by_cases hc : c ∈ reserved
      · simp [pToken_escape rec s hc] at h
      · simp [pToken_escape_invalid rec s hc] at h
  · simp [pToken_plain rec s h1] at h

theorem pExpect_ok {s r : Str} {c : Nat} (h : pExpect s [c] = (r, none)) : s = c :: r := by
  cases s with
  | nil => simp [pExpect_nil] at h
  | cons b s =>
    by_cases hb : b = c
    · subst hb
      simp [pExpect_cons_self] at h
      rw [h]
    · simp [pExpect_cons_ne _ hb] at h

theorem pName_ok {s name r : Str} (h : pName s = .ret (name, r, none)) :
    ∃ c s2, s = c :: s2 ∧ isNameByte c = true ∧ name = c :: s2.takeWhile isNameByte
      ∧ r = s2.dropWhile isNameByte := by
  cases s with
  | nil => simp [pName_nil] at h
  | cons c s =>
    by_cases hc : isNameByte c = true
    · rw [pName_cons_name s hc] at h
      simp only [Exec.ret.injEq, Prod.mk.injEq, and_true] at h
      exact ⟨c, s, rfl, hc, h.1.symm, h.2.symm⟩
    · simp [pName_cons_not s (by simpa using hc)] at h

/-- The five ways in which `pToken` returns a token. -/
theorem pToken_ok {rec : Str → Exec PResult} {b : Nat} {s r : Str} {t : Token}
    (h : pToken rec (b :: s) = .ret (t, r, none)) :
    (b = 58 ∧ ∃ c s2, s = c :: s2 ∧ isNameByte c = true
        ∧ t = .tParam (c :: s2.takeWhile isNameByte) ∧ r = s2.dropWhile isNameByte)
    ∨ (b = 42 ∧ ∃ c s2, s = c :: s2 ∧ isNameByte c = true
        ∧ t = .tGlob (c :: s2.takeWhile isNameByte) ∧ r = s2.dropWhile isNameByte)
    ∨ (b = 40 ∧ ∃ t2, rec s = .ret (t2, 41 :: r, none) ∧ t = .tGroup t2)
    ∨ (b = 92 ∧ ∃ c, c ∈ reserved ∧ s = c :: r ∧ t = .tChar [])
    ∨ (b ∉ reserved ∧ t = .tChar [b] ∧ r = s) := by
  rcases byte_cases b with h1 | h1 | h1 | h1 | h1 | h1
  · subst h1
    left
    refine ⟨rfl, ?_⟩
    rw [pToken_colon] at h
    rcases h2 : pName s with ⟨name, s2, _ | err⟩ | _ | _ <;> rw [h2] at h <;> simp at h
    obtain ⟨c, s3, e1, e2, e3, e4⟩ := pName_ok h2
    exact ⟨c, s3, e1, e2, by rw [← h.1, e3], by rw [← h.2, e4]⟩
  · subst h1
    right; left
    refine ⟨rfl, ?_⟩
    rw [pToken_star] at h
    rcases h2 : pName s with ⟨name, s2, _ | err⟩ | _ | _ <;> rw [h2] at h <;> simp at h
    obtain ⟨c, s3, e1, e2, e3, e4⟩ := pName_ok h2
    exact ⟨c, s3, e1, e2, by rw [← h.1, e3], by rw [← h.2, e4]⟩
  · subst h1
    right; right; left
    refine ⟨rfl, ?_⟩
    rw [pToken_open] at h
    rcases h2 : rec s with ⟨t2, s2, _ | err⟩ | _ | _ <;> rw [h2] at h <;> simp at h
    rcases h3 : pExpect s2 [41] with ⟨s3, _ | err⟩ <;> rw [h3] at h <;> simp at h
    have e := pExpect_ok h3
    exact ⟨t2, by rw [e, h.2], h.1.symm⟩
  · subst h1; simp [pToken_close] at h
  · subst h1
    right; right; right; left
    refine ⟨rfl, ?_⟩
    cases s with
    | nil => simp [pToken_escape_end] at h
    | cons c s =>
      by_cases hc : c ∈ reserved
      · simp [pToken_escape rec s hc] at h
        exact ⟨c, hc, by rw [h.2], h.1.symm⟩
      · simp [pToken_escape_invalid rec s hc] at h
  · right; right; right; right
    simp [pToken_plain rec s h1] at h
    exact ⟨h1, h.1.symm, h.2.symm⟩

theorem length_dropWhile_le (p : Nat → Bool) (s : Str) :
    (s.dropWhile p).length ≤ s.length := by
  induction s with
  | nil => simp
  | cons b s ih =>
    simp only [List.dropWhile]
    split
    · simp only [List.length_cons]; omega
    · simp

/-- A token takes at least one byte, if the nested expression does not grow
its input. -/
theorem pToken_progress {rec : Str → Exec PResult} {b : Nat} {s r : Str} {t : Token}
    (hrec : ∀ t2 r2, rec s = .ret (t2, r2, none) → r2.length ≤ s.length)
    (h : pToken rec (b :: s) = .ret (t, r, none)) : r.length ≤ s.length := by
  rcases pToken_ok h with ⟨_, c, s2, e1, _, _, e2⟩ | ⟨_, c, s2, e1, _, _, e2⟩ | ⟨_, t2, e1, _⟩
    | ⟨_, c, _, e1, _⟩ | ⟨_, _, e1⟩
  · subst e1 e2
    have := length_dropWhile_le isNameByte s2
    simp only [List.length_cons]; omega
  · subst e1 e2
    have := length_dropWhile_le isNameByte s2
    simp only [List.length_cons]; omega
  · have := hrec t2 _ e1
    simp only [List.length_cons] at this; omega
  · subst e1; simp
  · subst e1; simp

theorem loop_length (n : Nat) : ∀ (s : Str) (tokens : List Token) (t : Token) (r : Str),
    pExprGroupLoop n s tokens = .ret (t, r, none) → r.length ≤ s.length := by
  induction n with
  | zero => intro s tokens t r h; simp [pExprGroupLoop] at h
  | succ n ih =>
    intro s tokens t r h
    cases s with
    | nil => simp [loop_nil] at h; simp [h.2]
    | cons b s =>
      by_cases hb : b = 41
      · subst hb; simp [loop_close] at h; simp [← h.2]
      · rw [loop_step n s tokens hb] at h
        rcases h2 : pToken (fun str => pExprGroupLoop n str []) (b :: s)
          with ⟨t2, s2, _ | err⟩ | _ | _ <;> rw [h2] at h <;> simp at h
        have p1 := pToken_progress (fun t3 r3 h3 => ih s [] t3 r3 h3) h2
        have p2 := ih s2 _ t r h
        simp only [List.length_cons]; omega

/-- Fuel above the length of the input is never exhausted. -/
theorem loop_total (n : Nat) : ∀ (s : Str) (tokens : List Token),
    s.length < n → pExprGroupLoop n s tokens ≠ .fuel := by
  induction n with
  | zero => intro s tokens h; omega
  | succ n ih =>
    intro s tokens hlen h
    cases s with
    | nil => simp [loop_nil] at h
    | cons b s =>
      simp only [List.length_cons] at hlen
      by_cases hb : b = 41
      · subst hb; simp [loop_close] at h
      · rw [loop_step n s tokens hb] at h
        rcases h2 : pToken (fun str => pExprGroupLoop n str []) (b :: s)
          with ⟨t2, s2, _ | err⟩ | _ | _ <;> rw [h2] at h <;> simp at h
        · have p1 := pToken_progress (fun t3 r3 h3 => loop_length n s [] t3 r3 h3) h2
          exact ih s2 _ (by omega) h
        · exact ih s [] (by omega) (pToken_fuel h2).2

/-- More fuel does not change a result. -/
theorem loop_mono (n : Nat) : ∀ (s : Str) (tokens : List Token),
    pExprGroupLoop n s tokens ≠ .fuel →
    pExprGroupLoop (n + 1) s tokens = pExprGroupLoop n s tokens := by
  induction n with
  | zero => intro s tokens h; simp [pExprGroupLoop] at h
  | succ n ih =>
    intro s tokens h
    cases s with
    | nil => simp [loop_nil]
    | cons b s =>
      by_cases hb : b = 41
      · subst hb; simp [loop_close]
      · rw [loop_step n s tokens hb] at h
        rw [loop_step n s tokens hb, loop_step (n + 1) s tokens hb]
        have hc : pToken (fun str => pExprGroupLoop (n + 1) str []) (b :: s)
            = pToken (fun str => pExprGroupLoop n str []) (b :: s) := by
          apply pToken_congr
          intro hb40
          apply ih
          intro hf
          apply h
          have : pToken (fun str => pExprGroupLoop n str []) (b :: s) = .fuel := by
            subst hb40
            rw [pToken_open]
            simp only [hf]
          rw [this]
        rw [hc]
        rcases h2 : pToken (fun str => pExprGroupLoop n str []) (b :: s)
          with ⟨t2, s2, _ | err⟩ | _ | _
        · rw [h2] at h
          exact ih s2 _ h
        · rfl
        · rfl
        · rfl

theorem loop_mono_le {n m : Nat} (s : Str) (tokens : List Token) (hnm : n ≤ m)
    (h : pExprGroupLoop n s tokens ≠ .fuel) :
    pExprGroupLoop m s tokens = pExprGroupLoop n s tokens := by
  induction hnm with
  | refl => rfl
  | step hk ih =>
    rw [loop_mono _ s tokens (by rw [ih]; exact h), ih]

/-- With fuel above the length of the input the amount of fuel does not matter. -/
theorem pExprGroup_fuel_irrelevant {n m : Nat} (str : Str)
    (hn : str.length < n) (hm : str.length < m) : pExprGroup n str = pExprGroup m str := by
  unfold pExprGroup
  rcases Nat.le_total n m with h | h
  · exact (loop_mono_le str [] h (loop_total n str [] hn)).symm
  · exact loop_mono_le str [] h (loop_total m str [] hm)

theorem takeWhile_append_close (s w : Str) :
    (s ++ 41 :: w).takeWhile isNameByte = s.takeWhile isNameByte := by
  induction s with
  | nil => simp [List.takeWhile, isNameByte]
  | cons b s ih =>
    by_cases hb : isNameByte b = true <;> simp [List.takeWhile_cons, hb, ih]

theorem dropWhile_append_close (s w : Str) :
    (s ++ 41 :: w).dropWhile isNameByte = s.dropWhile isNameByte ++ 41 :: w := by
  induction s with
  | nil => simp [List.dropWhile, isNameByte]
  | cons b s ih =>
    by_cases hb : isNameByte b = true <;> simp [List.dropWhile_cons, hb, ih]

/-- A token parsed from `b :: s` is parsed in the same way when a closing
parenthesis and more text follow. -/
theorem pToken_append_close {rec : Str → Exec PResult} {b : Nat} {s r : Str} {t : Token}
    (w : Str)
    (hrec : ∀ t2 r2, rec s = .ret (t2, r2, none) →
      rec (s ++ 41 :: w) = .ret (t2, r2 ++ 41 :: w, none))
    (h : pToken rec (b :: s) = .ret (t, r, none)) :
    pToken rec (b :: (s ++ 41 :: w)) = .ret (t, r ++ 41 :: w, none) := by
  rcases pToken_ok h with ⟨e0, c, s2, e1, hc, e2, e3⟩ | ⟨e0, c, s2, e1, hc, e2, e3⟩
    | ⟨e0, t2, e1, e2⟩ | ⟨e0, c, hc, e1, e2⟩ | ⟨hb, e1, e2⟩
  · subst e0 e1 e2 e3
    rw [pToken_colon, List.cons_append, pName_cons_name _ hc, takeWhile_append_close,
      dropWhile_append_close]
  · subst e0 e1 e2 e3
    rw [pToken_star, List.cons_append, pName_cons_name _ hc, takeWhile_append_close,
      dropWhile_append_close]
  · subst e0 e2
    rw [pToken_open, hrec t2 _ e1]
    simp [pExpect_cons_self]
  · subst e0 e1 e2
    rw [List.cons_append, pToken_escape rec _ hc]
  · subst e1 e2
    rw [pToken_plain rec _ hb]

theorem loop_append_close (n : Nat) (w : Str) :
    ∀ (s : Str) (tokens : List Token) (t : Token) (r : Str),
    pExprGroupLoop n s tokens = .ret (t, r, none) →
    pExprGroupLoop n (s ++ 41 :: w) tokens = .ret (t, r ++ 41 :: w, none) := by
  induction n with
  | zero => intro s tokens t r h; simp [pExprGroupLoop] at h
  | succ n ih =>
    intro s tokens t r h
    cases s with
    | nil =>
      simp only [loop_nil, Exec.ret.injEq, Prod.mk.injEq, and_true] at h
      obtain ⟨h1, h2⟩ := h
      subst h1 h2
      simp [loop_close]
    | cons b s =>
      by_cases hb : b = 41
      · subst hb
        simp only [loop_close, Exec.ret.injEq, Prod.mk.injEq, and_true] at h
        obtain ⟨h1, h2⟩ := h
        subst h1 h2
        simp [loop_close]
      · rw [loop_step n s tokens hb] at h
        rw [List.cons_append, loop_step n _ tokens hb]
        rcases h2 : pToken (fun str => pExprGroupLoop n str []) (b :: s)
          with ⟨t2, s2, _ | err⟩ | _ | _ <;> rw [h2] at h <;> simp at h
        rw [pToken_append_close w (fun t3 r3 h3 => ih s [] t3 r3 h3) h2]
        exact ih s2 _ t r h

/-- Where the loop of `pExprGroup` stops before the end, a closing
parenthesis is next; and what it returns is a `tList`. -/
theorem loop_stops_at_close (n : Nat) :
    ∀ (s : Str) (tokens : List Token) (t : Token) (r : Str),
    pExprGroupLoop n s tokens = .ret (t, r, none) →
    (r = [] ∨ ∃ w, r = 41 :: w) ∧ ∃ items, t = .tList (tokens ++ items) := by
  induction n with
  | zero => intro s tokens t r h; simp [pExprGroupLoop] at h
  | succ n ih =>
    intro s tokens t r h
    cases s with
    | nil =>
      simp [loop_nil] at h
      exact ⟨Or.inl h.2, [], by simp [h.1]⟩
    | cons b s =>
      by_cases hb : b = 41
      · subst hb
        simp [loop_close] at h
        exact ⟨Or.inr ⟨s, h.2.symm⟩, [], by simp [h.1]⟩
      · rw [loop_step n s tokens hb] at h
        rcases h2 : pToken (fun str => pExprGroupLoop n str []) (b :: s)
          with ⟨t2, s2, _ | err⟩ | _ | _ <;> rw [h2] at h <;> simp at h
        obtain ⟨h3, items, h4⟩ := ih s2 _ t r h
        exact ⟨h3, t2 :: items, by simp [h4]⟩

/-! ## `Parse` in terms of `pExprGroup` -/

theorem Parse_ok_iff (str : Str) (t : Token) :
    Parse str = .ret (t, none) ↔ pExprGroup (str.length + 1) str = .ret (t, [], none) := by
  unfold Parse
  rcases h : pExprGroup (str.length + 1) str with ⟨t2, s2, _ | err⟩ | _ | _
  · cases s2 with
    | nil => simp
    | cons b s2 =>
      simp only [Option.isNone_none, List.length_cons, Bool.true_and]
      have : ((s2.length + 1 != 0) = true) := by simp
      simp only [this, if_true]
      cases slice str 0 (str.length - (s2.length + 1)) <;> simp
  · simp only [Option.isNone_some, Bool.false_and, Bool.false_eq_true, if_false]
    cases slice str 0 (str.length - s2.length) <;> simp
  · simp
  · simp

theorem slice_zero_length (str : Str) : slice str 0 str.length = some str := by
  simp [slice]

theorem slice_zero_append (p r : Str) :
    slice (p ++ r) 0 ((p ++ r).length - r.length) = some p := by
  simp [slice]

/-- An error of `pExprGroup` comes with the empty remainder, so `Parse` reports
the whole input as the text read. -/
theorem Parse_of_error {str e : Str} {t : Token}
    (h : pExprGroup (str.length + 1) str = .ret (t, [], some e)) :
    Parse str = .ret (.tList [],
      some (lit "strexp parse error: after '" ++ str ++ lit "': " ++ e)) := by
  unfold Parse
  rw [h]
  simp only [Option.isNone_some, Bool.false_and, Bool.false_eq_true, if_false,
    List.length_nil, Nat.sub_zero, slice_zero_length]

theorem Parse_of_rest {p r : Str} {t : Token} {b : Nat}
    (h : pExprGroup ((p ++ b :: r).length + 1) (p ++ b :: r) = .ret (t, b :: r, none)) :
    Parse (p ++ b :: r) = .ret (.tList [],
      some (lit "strexp parse error: after '" ++ p ++ lit "': " ++ lit "Unmatched ')'.")) := by
  unfold Parse
  rw [h]
  have : (((b :: r).length != 0) = true) := by simp
  simp only [Option.isNone_none, Bool.true_and, this, if_true, slice_zero_append]

/-- The fuel that `Parse` supplies is never exhausted. -/
theorem Parse_ne_fuel (str : Str) : Parse str ≠ .fuel := by
  unfold Parse
  have h := loop_total (str.length + 1) str [] (Nat.lt_succ_self _)
  unfold pExprGroup
  rcases hr : pExprGroupLoop (str.length + 1) str [] with ⟨t, s, _ | err⟩ | _ | _
  · cases s with
    | nil => simp
    | cons b s =>
      have hb : (((b :: s).length != 0) = true) := by simp
      simp only [Option.isNone_none, Bool.true_and, hb, if_true]
      cases slice str 0 (str.length - (b :: s).length) <;> simp
  · simp only [Option.isNone_some, Bool.false_and, Bool.false_eq_true, if_false]
    cases slice str 0 (str.length - s.length) <;> simp
  · simp
  · exact absurd hr h

/-! ## Rendering and parsing again -/

theorem loop_of_fuel {m n : Nat} {s : Str} {tokens : List Token} {r : PResult}
    (h : pExprGroupLoop m s tokens = .ret r) (hn : s.length < n) :
    pExprGroupLoop n s tokens = .ret r := by
  rcases Nat.le_total m n with hmn | hnm
  · rw [loop_mono_le s tokens hmn (by rw [h]; simp), h]
  · rw [← loop_mono_le s tokens hnm (loop_total n s tokens hn), h]

theorem isIdentByte_of_isNameByte {b : Nat} (h : isNameByte b = true) :
    isIdentByte b = true := by
  simp [isNameByte, isIdentByte] at *
  omega

theorem takeWhile_name_append (name next : Str) (hn : name.all isNameByte = true)
    (hf : followOK next = true) :
    (name ++ next).takeWhile isNameByte = name
    ∧ (name ++ next).dropWhile isNameByte = next := by
  induction name with
  | nil =>
    cases next with
    | nil => simp
    | cons b next =>
      have hb : isNameByte b = false := by
        cases hb : isNameByte b with
        | false => rfl
        | true =>
          have := isIdentByte_of_isNameByte hb
          simp [followOK, this] at hf
      simp [List.takeWhile_cons, List.dropWhile_cons, hb]
  | cons c name ih =>
    simp only [List.all_cons, Bool.and_eq_true] at hn
    obtain ⟨i1, i2⟩ := ih hn.2
    simp [List.takeWhile_cons, List.dropWhile_cons, hn.1, i1, i2]

theorem fragment_append (a b : List Token) (c : StrExpConfig) :
    RegExpFragmentItems (a ++ b) c = RegExpFragmentItems a c ++ RegExpFragmentItems b c := by
  induction a with
  | nil => simp [RegExpFragmentItems]
  | cons i a ih => simp [RegExpFragmentItems, ih]

mutual
theorem fragment_flatten (c : StrExpConfig) :
    ∀ t : Token, RegExpFragmentItems t.flatten c = t.RegExpFragment c
  | .tList items => by
    simp only [Token.flatten, Token.RegExpFragment]
    exact fragment_flattenItems c items
  | .tGroup item => by
    simp [Token.flatten, Token.RegExpFragment, RegExpFragmentItems, fragment_flatten c item]
  | .tParam name => by simp [Token.flatten, RegExpFragmentItems]
  | .tGlob name => by simp [Token.flatten, RegExpFragmentItems]
  | .tChar char => by simp [Token.flatten, RegExpFragmentItems]
theorem fragment_flattenItems (c : StrExpConfig) :
    ∀ items : List Token, RegExpFragmentItems (flattenItems items) c = RegExpFragmentItems items c
  | [] => by simp [flattenItems]
  | i :: rest => by
    simp [flattenItems, RegExpFragmentItems, fragment_append, fragment_flatten c i,
      fragment_flattenItems c rest]
end

theorem loop_name (n : Nat) (b : Nat) (name next : Str) (tokens : List Token)
    (mk : Str → Token) (hb : b = 58 ∧ mk = Token.tParam ∨ b = 42 ∧ mk = Token.tGlob)
    (hn : nameOK name = true) (hf : followOK next = true) :
    pExprGroupLoop (n + 1) (b :: name ++ next) tokens
      = pExprGroupLoop n next (tokens ++ [mk name]) := by
  cases name with
  | nil => simp [nameOK] at hn
  | cons c name =>
    simp only [nameOK, List.all_cons, Bool.and_eq_true] at hn
    obtain ⟨e1, e2⟩ := takeWhile_name_append name next hn.2.2 hf
    rcases hb with ⟨hb, hm⟩ | ⟨hb, hm⟩
    · subst hb hm
      rw [List.cons_append, loop_step _ _ _ (by decide), pToken_colon, List.cons_append,
        pName_cons_name _ hn.2.1, e1, e2]
    · subst hb hm
      rw [List.cons_append, loop_step _ _ _ (by decide), pToken_star, List.cons_append,
        pName_cons_name _ hn.2.1, e1, e2]

mutual
/-- The loop of `pExprGroup` reads the rendering of a tree and goes on with
the text after it, having appended the tokens `t.flatten`. -/
theorem roundTrip_token : ∀ (t : Token) (next s : Str),
    t.validBefore next = true → t.String = .ret s →
    ∀ (tokens : List Token) (r : PResult) (n0 : Nat),
      pExprGroupLoop n0 next (tokens ++ t.flatten) = .ret r →
      ∃ n, pExprGroupLoop n (s ++ next) tokens = .ret r
  | .tList items, next, s, hv, hs, tokens, r, n0, h => by
    simp only [Token.validBefore] at hv
    simp only [Token.String] at hs
    simp only [Token.flatten] at h
    exact roundTrip_items items next s hv hs tokens r n0 h
  | .tGroup item, next, s, hv, hs, tokens, r, n0, h => by
    simp only [Token.validBefore] at hv
    simp only [Token.String] at hs
    simp only [Token.flatten] at h
    rcases hx : item.String with sx | _ | _ <;> rw [hx] at hs <;> simp at hs
    subst hs
    obtain ⟨n1, h1⟩ := roundTrip_token item [] sx hv hx [] (.tList item.flatten, [], none) 1
      (by simp [loop_nil])
    have h2 := loop_append_close n1 next (sx ++ []) [] _ _ h1
    simp only [List.append_nil, List.nil_append] at h2
    refine ⟨max n0 n1 + 1, ?_⟩
    have es : lit "(" ++ (sx ++ lit ")") ++ next = 40 :: (sx ++ 41 :: next) := by
      simp [lit_open, lit_close]
    rw [es, loop_step _ _ _ (by decide), pToken_open]
    rw [loop_mono_le _ _ (Nat.le_max_right n0 n1) (by rw [h2]; simp), h2]
    simp only [pExpect_cons_self]
    rw [loop_mono_le _ _ (Nat.le_max_left n0 n1) (by rw [h]; simp), h]
  | .tParam name, next, s, hv, hs, tokens, r, n0, h => by
    simp only [Token.validBefore, Bool.and_eq_true] at hv
    simp only [Token.String, Exec.ret.injEq, lit_colon] at hs
    simp only [Token.flatten] at h
    subst hs
    exact ⟨n0 + 1, by
      rw [List.singleton_append, loop_name n0 58 name next tokens _ (Or.inl ⟨rfl, rfl⟩) hv.1 hv.2]
      exact h⟩
  | .tGlob name, next, s, hv, hs, tokens, r, n0, h => by
    simp only [Token.validBefore, Bool.and_eq_true] at hv
    simp only [Token.String, Exec.ret.injEq, lit_star] at hs
    simp only [Token.flatten] at h
    subst hs
    exact ⟨n0 + 1, by
      rw [List.singleton_append, loop_name n0 42 name next tokens _ (Or.inr ⟨rfl, rfl⟩) hv.1 hv.2]
      exact h⟩
  | .tChar char, next, s, hv, hs, tokens, r, n0, h => by
    simp only [Token.flatten] at h
    match char, hv, hs, h with
    | [b], hv, hs, h =>
      simp only [Token.validBefore, List.contains_eq_any_beq, Bool.not_eq_true',
        List.any_eq_false, beq_iff_eq] at hv
      have hb : b ∉ reserved := fun hm => hv b hm rfl
      simp only [Token.String, index, List.get?_cons_zero, hb, if_false, Exec.ret.injEq] at hs
      subst hs
      have h41 : b ≠ 41 := by intro e; apply hb; simp [e, reserved]
      exact ⟨n0 + 1, by
        rw [List.singleton_append, loop_step _ _ _ h41, pToken_plain _ _ hb]
        exact h⟩
    | [], hv, _, _ => simp [Token.validBefore] at hv
    | _ :: _ :: _, hv, _, _ => simp [Token.validBefore] at hv
theorem roundTrip_items : ∀ (items : List Token) (next s : Str),
    validItemsBefore items next = true → StringItems items = .ret s →
    ∀ (tokens : List Token) (r : PResult) (n0 : Nat),
      pExprGroupLoop n0 next (tokens ++ flattenItems items) = .ret r →
      ∃ n, pExprGroupLoop n (s ++ next) tokens = .ret r
  | [], next, s, _, hs, tokens, r, n0, h => by
    simp only [StringItems, Exec.ret.injEq] at hs
    subst hs
    exact ⟨n0, by simpa [flattenItems] using h⟩
  | i :: rest, next, s, hv, hs, tokens, r, n0, h => by
    simp only [validItemsBefore, Bool.and_eq_true] at hv
    simp only [StringItems] at hs
    simp only [flattenItems, ← List.append_assoc] at h
    rcases hr : StringItems rest with sr | _ | _ <;> rw [hr] at hv <;> simp at hv
    rcases hi : i.String with si | _ | _ <;> rw [hi, hr] at hs <;> simp at hs
    subst hs
    obtain ⟨n1, h1⟩ := roundTrip_items rest next sr hv.2 hr (tokens ++ i.flatten) r n0 h
    obtain ⟨n2, h2⟩ := roundTrip_token i (sr ++ next) si hv.1 hi tokens r n1 h1
    exact ⟨n2, by rw [List.append_assoc]; exact h2⟩
end

mutual
theorem String_of_validBefore : ∀ (t : Token) (next : Str),
    t.validBefore next = true → ∃ s, t.String = .ret s
  | .tList items, next, hv => by
    simp only [Token.validBefore] at hv
    simp only [Token.String]
    exact StringItems_of_validBefore items next hv
  | .tGroup item, next, hv => by
    simp only [Token.validBefore] at hv
    obtain ⟨s, hs⟩ := String_of_validBefore item [] hv
    exact ⟨lit "(" ++ s ++ lit ")", by simp [Token.String, hs]⟩
  | .tParam name, _, _ => ⟨_, rfl⟩
  | .tGlob name, _, _ => ⟨_, rfl⟩
  | .tChar char, next, hv => by
    match char, hv with
    | [b], hv =>
      by_cases hb : b ∈ reserved
      · exact ⟨lit "\\" ++ [b], by simp [Token.String, index, hb]⟩
      · exact ⟨[b], by simp [Token.String, index, hb]⟩
    | [], hv => simp [Token.validBefore] at hv
    | _ :: _ :: _, hv => simp [Token.validBefore] at hv
theorem StringItems_of_validBefore : ∀ (items : List Token) (next : Str),
    validItemsBefore items next = true → ∃ s, StringItems items = .ret s
  | [], _, _ => ⟨[], rfl⟩
  | i :: rest, next, hv => by
    simp only [validItemsBefore, Bool.and_eq_true] at hv
    rcases hr : StringItems rest with sr | _ | _ <;> rw [hr] at hv <;> simp at hv
    obtain ⟨si, hi⟩ := String_of_validBefore i (sr ++ next) hv.1
    exact ⟨si ++ sr, by simp [StringItems, hi, hr]⟩
end

/-! ## Text after a parsed text -/

theorem takeWhile_append_stop (s x : Str) (hx : x.takeWhile isNameByte = []) :
    (s ++ x).takeWhile isNameByte = s.takeWhile isNameByte := by
  induction s with
  | nil => simpa using hx
  | cons b s ih =>
    by_cases hb : isNameByte b = true <;> simp [List.takeWhile_cons, hb, ih]

theorem dropWhile_append_stop (s x : Str) (hx : x.takeWhile isNameByte = []) :
    (s ++ x).dropWhile isNameByte = s.dropWhile isNameByte ++ x := by
  induction s with
  | nil =>
    cases x with
    | nil => rfl
    | cons c x =>
      by_cases hc : isNameByte c = true
      · simp [List.takeWhile_cons, hc] at hx
      · simp [List.dropWhile_cons, hc]
  | cons b s ih =>
    by_cases hb : isNameByte b = true <;> simp [List.dropWhile_cons, hb, ih]

/-- A token parsed from `b :: s` is parsed in the same way when a text `x`
that does not begin with a name byte follows. -/
theorem pToken_append {rec rec2 : Str → Exec PResult} {b : Nat} {s r : Str} {t : Token}
    (x : Str) (hx : x.takeWhile isNameByte = [])
    (hrec : ∀ t2 w, rec s = .ret (t2, 41 :: w, none) →
      rec2 (s ++ x) = .ret (t2, 41 :: w ++ x, none))
    (h : pToken rec (b :: s) = .ret (t, r, none)) :
    pToken rec2 (b :: (s ++ x)) = .ret (t, r ++ x, none) := by
  rcases pToken_ok h with ⟨e0, c, s2, e1, hc, e2, e3⟩ | ⟨e0, c, s2, e1, hc, e2, e3⟩
    | ⟨e0, t2, e1, e2⟩ | ⟨e0, c, hc, e1, e2⟩ | ⟨hb, e1, e2⟩
  · subst e0 e1 e2 e3
    rw [pToken_colon, List.cons_append, pName_cons_name _ hc, takeWhile_append_stop _ _ hx,
      dropWhile_append_stop _ _ hx]
  · subst e0 e1 e2 e3
    rw [pToken_star, List.cons_append, pName_cons_name _ hc, takeWhile_append_stop _ _ hx,
      dropWhile_append_stop _ _ hx]
  · subst e0 e2
    rw [pToken_open, hrec t2 _ e1]
    simp [pExpect_cons_self]
  · subst e0 e1 e2
    rw [List.cons_append, pToken_escape rec2 _ hc]
  · subst e1 e2
    rw [pToken_plain rec2 _ hb]

/-- Where the loop of `pExprGroup` stopped before a closing parenthesis, it
stops there with the same tokens when more text follows. -/
theorem loop_append_stop (n : Nat) (x : Str) (hx : x.takeWhile isNameByte = []) :
    ∀ (s : Str) (tokens : List Token) (t : Token) (w : Str),
    pExprGroupLoop n s tokens = .ret (t, 41 :: w, none) →
    pExprGroupLoop n (s ++ x) tokens = .ret (t, 41 :: w ++ x, none) := by
  induction n with
  | zero => intro s tokens t w h; simp [pExprGroupLoop] at h
  | succ n ih =>
    intro s tokens t w h
    cases s with
    | nil => simp [loop_nil] at h
    | cons b s =>
      by_cases hb : b = 41
      · subst hb
        simp only [loop_close, Exec.ret.injEq, Prod.mk.injEq, and_true] at h
        obtain ⟨h1, h2⟩ := h
        simp only [List.cons.injEq, true_and] at h2
        subst h1 h2
        simp [loop_close]
      · rw [loop_step n s tokens hb] at h
        rw [List.cons_append, loop_step n _ tokens hb]
        rcases h2 : pToken (fun str => pExprGroupLoop n str []) (b :: s)
          with ⟨t2, s2, _ | err⟩ | _ | _ <;> rw [h2] at h <;> simp at h
        rw [pToken_append x hx (fun t3 w3 h3 => ih s [] t3 w3 h3) h2]
        exact ih s2 _ t w h

/-- Where the loop of `pExprGroup` read a whole text `s`, on `s` followed by
`x` it goes on with `x` and the tokens of `s`. -/
theorem loop_append_go (n : Nat) (x : Str) (hx : x.takeWhile isNameByte = []) :
    ∀ (s : Str) (tokens items : List Token),
    pExprGroupLoop n s tokens = .ret (.tList items, [], none) →
    ∀ (n0 : Nat) (res : PResult), pExprGroupLoop n0 x items = .ret res →
    ∃ m, pExprGroupLoop m (s ++ x) tokens = .ret res := by
  induction n with
  | zero => intro s tokens items h; simp [pExprGroupLoop] at h
  | succ n ih =>
    intro s tokens items h n0 res hres
    cases s with
    | nil =>
      simp only [loop_nil, Exec.ret.injEq, Prod.mk.injEq, and_true, Token.tList.injEq] at h
      subst h
      exact ⟨n0, by simpa using hres⟩
    | cons b s =>
      by_cases hb : b = 41
      · subst hb
        simp [loop_close] at h
      · rw [loop_step n s tokens hb] at h
        rcases h2 : pToken (fun str => pExprGroupLoop n str []) (b :: s)
          with ⟨t2, s2, _ | err⟩ | _ | _ <;> rw [h2] at h <;> simp at h
        obtain ⟨m1, hm1⟩ := ih s2 _ items h n0 res hres
        refine ⟨max m1 n + 1, ?_⟩
        rw [List.cons_append, loop_step _ _ tokens hb]
        have ht : pToken (fun str => pExprGroupLoop (max m1 n) str []) (b :: (s ++ x))
            = .ret (t2, s2 ++ x, none) := by
          apply pToken_append x hx _ h2
          intro t3 w3 h3
          have h4 := loop_append_stop n x hx s [] t3 w3 h3
          show pExprGroupLoop (max m1 n) (s ++ x) [] = _
          rw [loop_mono_le _ _ (Nat.le_max_right m1 n) (by rw [h4]; simp), h4]
        rw [ht]
        show pExprGroupLoop (max m1 n) (s2 ++ x) (tokens ++ [t2]) = _
        rw [loop_mono_le _ _ (Nat.le_max_left m1 n) (by rw [hm1]; simp), hm1]

/-- If the loop of `pExprGroup` fails on `x` with the error `e`, whatever
tokens it has appended, it fails with `e` on `p` followed by `x` for every
text `p` of tokens read. -/
theorem tokensRead_error (x e : Str) (hx : x.takeWhile isNameByte = [])
    (hfail : ∀ items, ∃ n0, pExprGroupLoop n0 x items = .ret (.tList [], [], some e)) :
    ∀ p, TokensRead p → ∃ m, pExprGroupLoop m (p ++ x) [] = .ret (.tList [], [], some e) := by
  intro p hp
  induction hp with
  | tokens u t h =>
    rw [Parse_ok_iff] at h
    unfold pExprGroup at h
    obtain ⟨_, items, hi⟩ := loop_stops_at_close _ _ _ _ _ h
    rw [hi] at h
    obtain ⟨n0, h0⟩ := hfail ([] ++ items)
    exact loop_append_go _ x hx u [] _ h n0 _ h0
  | group u q t h _ ih =>
    rw [Parse_ok_iff] at h
    unfold pExprGroup at h
    obtain ⟨_, items, hi⟩ := loop_stops_at_close _ _ _ _ _ h
    rw [hi] at h
    obtain ⟨m, hm⟩ := ih
    have hx2 : (40 :: (q ++ x)).takeWhile isNameByte = [] := by
      simp [List.takeWhile_cons, isNameByte]
    have h0 : pExprGroupLoop (m + 1) (40 :: (q ++ x)) ([] ++ items)
        = .ret (.tList [], [], some e) := by
      rw [loop_step _ _ _ (by decide), pToken_open]
      simp only [hm]
    obtain ⟨m2, hm2⟩ := loop_append_go _ _ hx2 u [] _ h _ _ h0
    exact ⟨m2, by simpa [lit_open] using hm2⟩

theorem Parse_tokensRead_error (x e : Str) (hx : x.takeWhile isNameByte = [])
    (hfail : ∀ items, ∃ n0, pExprGroupLoop n0 x items = .ret (.tList [], [], some e))
    (p : Str) (hp : TokensRead p) :
    Parse (p ++ x) = .ret (.tList [],
      some (lit "strexp parse error: after '" ++ (p ++ x) ++ lit "': " ++ e)) := by
  obtain ⟨m, hm⟩ := tokensRead_error x e hx hfail p hp
  exact Parse_of_error (loop_of_fuel hm (Nat.lt_succ_self _))

/-! ## Texts of plain characters -/

theorem loop_plain (e : Str) (he : ∀ b ∈ e, b ∉ reserved) :
    ∀ (n : Nat) (tokens : List Token), e.length < n →
    pExprGroupLoop n e tokens
      = .ret (.tList (tokens ++ e.map (fun b => Token.tChar [b])), [], none) := by
  induction e with
  | nil =>
    intro n tokens hn
    obtain ⟨k, rfl⟩ : ∃ k, n = k + 1 := ⟨n - 1, by omega⟩
    simp [loop_nil]
  | cons b e ih =>
    intro n tokens hn
    simp only [List.length_cons] at hn
    obtain ⟨k, rfl⟩ : ∃ k, n = k + 1 := ⟨n - 1, by omega⟩
    have hb : b ∉ reserved := he b (List.mem_cons_self _ _)
    have h41 : b ≠ 41 := by intro e; apply hb; simp [e, reserved]
    rw [loop_step _ _ _ h41, pToken_plain _ _ hb]
    simp only []
    rw [ih (fun x hx => he x (List.mem_cons_of_mem _ hx)) k _ (by omega)]
    simp

theorem fragment_plain (e : Str) (c : StrExpConfig) :
    RegExpFragmentItems (e.map (fun b => Token.tChar [b])) c
      = (e.map (fun b => QuoteMeta [b])).flatten := by
  induction e with
  | nil => simp [RegExpFragmentItems]
  | cons b e ih => simp [RegExpFragmentItems, Token.RegExpFragment, ih]

/-! ## Two configurations that differ in one requirement -/

mutual
theorem uses_pos_of_hasParam (name : Str) :
    ∀ t : Token, t.hasParam name = true → 0 < t.uses name
  | .tList items, h => by
    simp only [Token.hasParam] at h
    simp only [Token.uses]
    exact usesItems_pos_of_hasParam name items h
  | .tGroup item, h => by
    simp only [Token.hasParam] at h
    simp only [Token.uses]
    exact uses_pos_of_hasParam name item h
  | .tParam n, h => by
    simp only [Token.hasParam, beq_iff_eq] at h
    simp [Token.uses, h]
  | .tGlob _, h => by simp [Token.hasParam] at h
  | .tChar _, h => by simp [Token.hasParam] at h
theorem usesItems_pos_of_hasParam (name : Str) :
    ∀ items : List Token, hasParamItems name items = true → 0 < usesItems name items
  | [], h => by simp [hasParamItems] at h
  | i :: rest, h => by
    simp only [hasParamItems, Bool.or_eq_true] at h
    simp only [usesItems]
    rcases h with h | h
    · have := uses_pos_of_hasParam name i h
      omega
    · have := usesItems_pos_of_hasParam name rest h
      omega
end

theorem fragment_leaf_same {c1 c2 : StrExpConfig} {name n : Str}
    (hs : c1.separators = c2.separators)
    (ho : ∀ m, m ≠ name → c1.requirements m = c2.requirements m) (hn : n ≠ name) :
    (Token.tParam n).RegExpFragment c1 = (Token.tParam n).RegExpFragment c2
    ∧ (Token.tGlob n).RegExpFragment c1 = (Token.tGlob n).RegExpFragment c2 := by
  simp [Token.RegExpFragment, StrExpConfig.patternForName, StrExpConfig.hasPattern,
    ho n hn, hs]

theorem fragment_leaf_name {c : StrExpConfig} {name p : Str}
    (h : c.requirements name = some p) :
    (Token.tParam name).RegExpFragment c = lit "(?<" ++ name ++ lit ">" ++ p ++ lit ")"
    ∧ (Token.tGlob name).RegExpFragment c = lit "(?<" ++ name ++ lit ">" ++ p ++ lit ")" := by
  simp [Token.RegExpFragment, StrExpConfig.patternForName, StrExpConfig.hasPattern, h]

mutual
theorem fragment_length (c1 c2 : StrExpConfig) (name p1 p2 : Str)
    (hs : c1.separators = c2.separators)
    (ho : ∀ m, m ≠ name → c1.requirements m = c2.requirements m)
    (h1 : c1.requirements name = some p1) (h2 : c2.requirements name = some p2) :
    ∀ t : Token, (t.RegExpFragment c1).length + t.uses name * p2.length
      = (t.RegExpFragment c2).length + t.uses name * p1.length
  | .tList items => by
    simp only [Token.RegExpFragment, Token.uses]
    exact fragmentItems_length c1 c2 name p1 p2 hs ho h1 h2 items
  | .tGroup item => by
    have := fragment_length c1 c2 name p1 p2 hs ho h1 h2 item
    simp only [Token.RegExpFragment, Token.uses, List.length_append]
    omega
  | .tParam n => by
    by_cases hn : n = name
    · subst hn
      rw [(fragment_leaf_name h1).1, (fragment_leaf_name h2).1]
      simp only [Token.uses, if_true, List.length_append]
      omega
    · rw [(fragment_leaf_same hs ho hn).1]
      simp [Token.uses, hn]
  | .tGlob n => by
    by_cases hn : n = name
    · subst hn
      rw [(fragment_leaf_name h1).2, (fragment_leaf_name h2).2]
      simp only [Token.uses, if_true, List.length_append]
      omega
    · rw [(fragment_leaf_same hs ho hn).2]
      simp [Token.uses, hn]
  | .tChar _ => by simp [Token.RegExpFragment, Token.uses]
theorem fragmentItems_length (c1 c2 : StrExpConfig) (name p1 p2 : Str)
    (hs : c1.separators = c2.separators)
    (ho : ∀ m, m ≠ name → c1.requirements m = c2.requirements m)
    (h1 : c1.requirements name = some p1) (h2 : c2.requirements name = some p2) :
    ∀ items : List Token, (RegExpFragmentItems items c1).length + usesItems name items * p2.length
      = (RegExpFragmentItems items c2).length + usesItems name items * p1.length
  | [] => by simp [RegExpFragmentItems, usesItems]
  | i :: rest => by
    have a := fragment_length c1 c2 name p1 p2 hs ho h1 h2 i
    have b := fragmentItems_length c1 c2 name p1 p2 hs ho h1 h2 rest
    simp only [RegExpFragmentItems, usesItems, List.length_append, Nat.add_mul]
    omega
end

mutual
theorem fragment_eq_pattern (c1 c2 : StrExpConfig) (name p1 p2 : Str)
    (hs : c1.separators = c2.separators)
    (ho : ∀ m, m ≠ name → c1.requirements m = c2.requirements m)
    (h1 : c1.requirements name = some p1) (h2 : c2.requirements name = some p2)
    (hl : p1.length = p2.length) :
    ∀ t : Token, t.RegExpFragment c1 = t.RegExpFragment c2 → 0 < t.uses name → p1 = p2
  | .tList items, he, hu => by
    simp only [Token.RegExpFragment] at he
    simp only [Token.uses] at hu
    exact fragmentItems_eq_pattern c1 c2 name p1 p2 hs ho h1 h2 hl items he hu
  | .tGroup item, he, hu => by
    simp only [Token.RegExpFragment, List.append_assoc, List.append_cancel_left_eq,
      List.append_cancel_right_eq] at he
    simp only [Token.uses] at hu
    exact fragment_eq_pattern c1 c2 name p1 p2 hs ho h1 h2 hl item he hu
  | .tParam n, he, hu => by
    by_cases hn : n = name
    · subst hn
      rw [(fragment_leaf_name h1).1, (fragment_leaf_name h2).1] at he
      simpa using he
    · simp [Token.uses, hn] at hu
  | .tGlob n, he, hu => by
    by_cases hn : n = name
    · subst hn
      rw [(fragment_leaf_name h1).2, (fragment_leaf_name h2).2] at he
      simpa using he
    · simp [Token.uses, hn] at hu
  | .tChar _, _, hu => by simp [Token.uses] at hu
theorem fragmentItems_eq_pattern (c1 c2 : StrExpConfig) (name p1 p2 : Str)
    (hs : c1.separators = c2.separators)
    (ho : ∀ m, m ≠ name → c1.requirements m = c2.requirements m)
    (h1 : c1.requirements name = some p1) (h2 : c2.requirements name = some p2)
    (hl : p1.length = p2.length) :
    ∀ items : List Token, RegExpFragmentItems items c1 = RegExpFragmentItems items c2 →
      0 < usesItems name items → p1 = p2
  | [], _, hu => by simp [usesItems] at hu
  | i :: rest, he, hu => by
    simp only [RegExpFragmentItems] at he
    simp only [usesItems] at hu
    have a := fragment_length c1 c2 name p1 p2 hs ho h1 h2 i
    rw [hl] at a
    obtain ⟨e1, e2⟩ := List.append_inj he (by omega)
    by_cases hi : 0 < i.uses name
    · exact fragment_eq_pattern c1 c2 name p1 p2 hs ho h1 h2 hl i e1 hi
    · exact fragmentItems_eq_pattern c1 c2 name p1 p2 hs ho h1 h2 hl rest e2 (by omega)
end

/-! ## The names of a parsed tree -/

theorem namesValidItems_append (a b : List Token) :
    namesValidItems (a ++ b) = (namesValidItems a && namesValidItems b) := by
  induction a with
  | nil => simp [namesValidItems]
  | cons i a ih => simp [namesValidItems, ih, Bool.and_assoc]

theorem name_valid {c : Nat} (s : Str) (hc : isNameByte c = true) :
    (!(c :: s.takeWhile isNameByte).isEmpty
      && (c :: s.takeWhile isNameByte).all isIdentByte) = true := by
  simp only [List.isEmpty_cons, Bool.not_false, Bool.true_and, List.all_cons,
    Bool.and_eq_true, List.all_eq_true]
  refine ⟨isIdentByte_of_isNameByte hc, ?_⟩
  intro x hx
  exact isIdentByte_of_isNameByte (List.mem_takeWhile_imp hx)

theorem pToken_namesValid {rec : Str → Exec PResult} {b : Nat} {s r : Str} {t : Token}
    (hrec : ∀ t2 r2, rec s = .ret (t2, r2, none) →
      t2.namesValid = true ∧ ∃ items, t2 = .tList items)
    (h : pToken rec (b :: s) = .ret (t, r, none)) : t.namesValid = true := by
  rcases pToken_ok h with ⟨_, c, s2, _, hc, e2, _⟩ | ⟨_, c, s2, _, hc, e2, _⟩
    | ⟨_, t2, e1, e2⟩ | ⟨_, c, _, _, e2⟩ | ⟨_, e2, _⟩
  · subst e2
    simp only [Token.namesValid]
    exact name_valid s2 hc
  · subst e2
    simp only [Token.namesValid]
    exact name_valid s2 hc
  · obtain ⟨hv, items, hi⟩ := hrec t2 _ e1
    subst e2 hi
    simp only [Token.namesValid] at hv ⊢
    simp [hv]
  · subst e2; simp [Token.namesValid]
  · subst e2; simp [Token.namesValid]

theorem loop_namesValid (n : Nat) :
    ∀ (s : Str) (tokens : List Token) (t : Token) (r : Str),
    pExprGroupLoop n s tokens = .ret (t, r, none) → namesValidItems tokens = true →
    t.namesValid = true := by
  induction n with
  | zero => intro s tokens t r h; simp [pExprGroupLoop] at h
  | succ n ih =>
    intro s tokens t r h hv
    cases s with
    | nil =>
      simp only [loop_nil, Exec.ret.injEq, Prod.mk.injEq, and_true] at h
      rw [← h.1]
      simpa [Token.namesValid] using hv
    | cons b s =>
      by_cases hb : b = 41
      · subst hb
        simp only [loop_close, Exec.ret.injEq, Prod.mk.injEq, and_true] at h
        rw [← h.1]
        simpa [Token.namesValid] using hv
      · rw [loop_step n s tokens hb] at h
        rcases h2 : pToken (fun str => pExprGroupLoop n str []) (b :: s)
          with ⟨t2, s2, _ | err⟩ | _ | _ <;> rw [h2] at h <;> simp at h
        have h3 : t2.namesValid = true :=
          pToken_namesValid (fun t3 r3 h3 =>
            ⟨ih s [] t3 r3 h3 rfl, by
              obtain ⟨_, items, hi⟩ := loop_stops_at_close n s [] t3 r3 h3
              exact ⟨items, by simpa using hi⟩⟩) h2
        apply ih s2 _ t r h
        rw [namesValidItems_append, hv]
        simp [namesValidItems, h3]

theorem isNameByte_of_not_ident {x : Nat} (hx : isIdentByte x = false) :
    isNameByte x = false := by
  cases h : isNameByte x with
  | false => rfl
  | true => rw [isIdentByte_of_isNameByte h] at hx; exact absurd hx (by decide)

/-! ## The text that a token takes -/

theorem pToken_consumed {rec : Str → Exec PResult} {b : Nat} {s r : Str} {t : Token}
    (hrec : ∀ t2 r2, rec s = .ret (t2, r2, none) → ∃ cons, s = cons ++ r2)
    (h : pToken rec (b :: s) = .ret (t, r, none)) : ∃ cons, b :: s = (b :: cons) ++ r := by
  rcases pToken_ok h with ⟨_, c, s2, e1, _, _, e3⟩ | ⟨_, c, s2, e1, _, _, e3⟩
    | ⟨_, t2, e1, _⟩ | ⟨_, c, _, e1, _⟩ | ⟨_, _, e2⟩
  · subst e1 e3
    exact ⟨c :: s2.takeWhile isNameByte, by simp⟩
  · subst e1 e3
    exact ⟨c :: s2.takeWhile isNameByte, by simp⟩
  · obtain ⟨cons, hc⟩ := hrec t2 _ e1
    exact ⟨cons ++ [41], by simp [hc]⟩
  · subst e1
    exact ⟨[c], by simp⟩
  · subst e2
    exact ⟨[], by simp⟩

theorem loop_consumed (n : Nat) :
    ∀ (s : Str) (tokens : List Token) (t : Token) (r : Str),
    pExprGroupLoop n s tokens = .ret (t, r, none) → ∃ cons, s = cons ++ r := by
  induction n with
  | zero => intro s tokens t r h; simp [pExprGroupLoop] at h
  | succ n ih =>
    intro s tokens t r h
    cases s with
    | nil =>
      simp only [loop_nil, Exec.ret.injEq, Prod.mk.injEq, and_true] at h
      exact ⟨[], by simp [← h.2]⟩
    | cons b s =>
      by_cases hb : b = 41
      · subst hb
        simp only [loop_close, Exec.ret.injEq, Prod.mk.injEq, and_true] at h
        exact ⟨[], by simp [← h.2]⟩
      · rw [loop_step n s tokens hb] at h
        rcases h2 : pToken (fun str => pExprGroupLoop n str []) (b :: s)
          with ⟨t2, s2, _ | err⟩ | _ | _ <;> rw [h2] at h <;> simp at h
        obtain ⟨c1, hc1⟩ := pToken_consumed (fun t3 r3 h3 => ih s [] t3 r3 h3) h2
        obtain ⟨c2, hc2⟩ := ih s2 _ t r h
        exact ⟨(b :: c1) ++ c2, by rw [hc1, hc2]; simp⟩

/-! ## Rendering a parsed tree -/

theorem StringItems_append_single {tokens : List Token} {t : Token} {st s1 : Str}
    (h1 : StringItems tokens = .ret st) (h2 : t.String = .ret s1) :
    StringItems (tokens ++ [t]) = .ret (st ++ s1) := by
  induction tokens generalizing st with
  | nil =>
    simp only [StringItems, Exec.ret.injEq] at h1
    subst h1
    simp [StringItems, h2]
  | cons i tokens ih =>
    simp only [StringItems] at h1
    rcases hi : i.String with si | _ | _ <;> rw [hi] at h1 <;> simp at h1
    rcases hr : StringItems tokens with sr | _ | _ <;> rw [hr] at h1 <;> simp at h1
    subst h1
    simp [StringItems, hi, ih hr]

theorem pToken_string {rec : Str → Exec PResult} {b : Nat} {s r : Str} {t : Token}
    (hs : 92 ∉ b :: s)
    (hrec : ∀ t2 r2, rec s = .ret (t2, r2, none) →
      ∃ cons, s = cons ++ r2 ∧ t2.String = .ret cons)
    (h : pToken rec (b :: s) = .ret (t, r, none)) :
    ∃ cons, b :: s = cons ++ r ∧ t.String = .ret cons := by
  rcases pToken_ok h with ⟨e0, c, s2, e1, _, e2, e3⟩ | ⟨e0, c, s2, e1, _, e2, e3⟩
    | ⟨e0, t2, e1, e2⟩ | ⟨e0, c, _, e1, _⟩ | ⟨hb, e1, e2⟩
  · subst e0 e1 e2 e3
    exact ⟨58 :: c :: s2.takeWhile isNameByte, by simp, by simp [Token.String, lit_colon]⟩
  · subst e0 e1 e2 e3
    exact ⟨42 :: c :: s2.takeWhile isNameByte, by simp, by simp [Token.String, lit_star]⟩
  · obtain ⟨cons, hc, hstr⟩ := hrec t2 _ e1
    subst e0 e2
    exact ⟨40 :: cons ++ [41], by simp [hc],
      by simp [Token.String, hstr, lit_open, lit_close]⟩
  · subst e0
    simp at hs
  · subst e1 e2
    exact ⟨[b], by simp, by simp [Token.String, index, hb]⟩

theorem loop_string (n : Nat) :
    ∀ (s : Str) (tokens : List Token) (t : Token) (r st : Str),
    pExprGroupLoop n s tokens = .ret (t, r, none) → 92 ∉ s →
    StringItems tokens = .ret st →
    ∃ cons, s = cons ++ r ∧ t.String = .ret (st ++ cons) := by
  induction n with
  | zero => intro s tokens t r st h; simp [pExprGroupLoop] at h
  | succ n ih =>
    intro s tokens t r st h hs hst
    cases s with
    | nil =>
      simp only [loop_nil, Exec.ret.injEq, Prod.mk.injEq, and_true] at h
      obtain ⟨h1, h2⟩ := h
      subst h1 h2
      exact ⟨[], by simp, by simpa [Token.String] using hst⟩
    | cons b s =>
      by_cases hb : b = 41
      · subst hb
        simp only [loop_close, Exec.ret.injEq, Prod.mk.injEq, and_true] at h
        obtain ⟨h1, h2⟩ := h
        subst h1 h2
        exact ⟨[], by simp, by simpa [Token.String] using hst⟩
      · rw [loop_step n s tokens hb] at h
        rcases h2 : pToken (fun str => pExprGroupLoop n str []) (b :: s)
          with ⟨t2, s2, _ | err⟩ | _ | _ <;> rw [h2] at h <;> simp at h
        have hs1 : 92 ∉ s := fun hm => hs (List.mem_cons_of_mem _ hm)
        obtain ⟨c1, hc1, hstr1⟩ := pToken_string hs (fun t3 r3 h3 => by
          obtain ⟨c, hc, hstr⟩ := ih s [] t3 r3 [] h3 hs1 rfl
          exact ⟨c, hc, by simpa using hstr⟩) h2
        have hs2 : 92 ∉ s2 := by
          intro hm
          apply hs
          rw [hc1]
          exact List.mem_append_right _ hm
        obtain ⟨c2, hc2, hstr2⟩ := ih s2 _ t r _ h hs2 (StringItems_append_single hst hstr1)
        exact ⟨c1 ++ c2, by rw [hc1, hc2]; simp, by simpa using hstr2⟩

/-! ## Where `pChar` is called, and the errors of the parser -/

theorem pTokenWith_eq (pc : Str → Exec PResult) (rec : Str → Exec PResult) {b : Nat} (s : Str)
    (hpc : b ∉ [40, 41, 42, 58] → pc (b :: s) = pChar (b :: s)) (hb : b ≠ 41) :
    pTokenWith pc rec (b :: s) = pToken rec (b :: s) := by
  by_cases h1 : b = 58
  · subst h1
    simp only [pTokenWith, pToken, lit_colon, pExpect_cons_self]
  by_cases h2 : b = 42
  · subst h2
    simp only [pTokenWith, pToken, lit_colon, lit_star, pExpect_cons_self,
      pExpect_cons_ne _ h1]
  by_cases h3 : b = 40
  · subst h3
    simp only [pTokenWith, pToken, lit_colon, lit_star, lit_open, pExpect_cons_self,
      pExpect_cons_ne _ h1, pExpect_cons_ne _ h2]
  · have hm : b ∉ [40, 41, 42, 58] := by simp [h1, h2, h3, hb]
    simp only [pTokenWith, pToken, lit_colon, lit_star, lit_open, pExpect_cons_ne _ h1,
      pExpect_cons_ne _ h2, pExpect_cons_ne _ h3, hpc hm]

theorem loopWith_eq (pc : Str → Exec PResult)
    (hpc : ∀ b s, b ∉ [40, 41, 42, 58] → pc (b :: s) = pChar (b :: s)) (n : Nat) :
    ∀ (s : Str) (tokens : List Token),
    pExprGroupLoopWith pc n s tokens = pExprGroupLoop n s tokens := by
  induction n with
  | zero => intro s tokens; rfl
  | succ n ih =>
    intro s tokens
    cases s with
    | nil => simp [pExprGroupLoopWith, pExprGroupLoop]
    | cons b s =>
      by_cases hb : b = 41
      · subst hb
        simp [pExprGroupLoopWith, pExprGroupLoop, lit_close, pExpect_cons_self]
      · have hf : (fun str => pExprGroupLoopWith pc n str [])
            = (fun str => pExprGroupLoop n str []) := funext (fun str => ih str [])
        rw [loop_step n s tokens hb]
        simp only [pExprGroupLoopWith, List.length_cons, Nat.add_one_ne_zero, if_false,
          lit_close, pExpect_cons_ne _ hb, hf, pTokenWith_eq pc _ s (hpc b s) hb]
        rcases pToken (fun str => pExprGroupLoop n str []) (b :: s)
          with ⟨t2, s2, _ | err⟩ | _ | _
        · exact ih s2 _
        · rfl
        · rfl
        · rfl

theorem pChar_missing {str r ch : Str} {t : Token}
    (h : pChar str = .ret (t, r,
      some (lit "Unexpected special character '" ++ ch ++ lit "', missing escaping."))) :
    ∃ b s, str = b :: s ∧ b ∈ [40, 41, 42, 58] := by
  cases str with
  | nil => simp [pChar, index] at h
  | cons b s =>
    refine ⟨b, s, rfl, ?_⟩
    rcases byte_cases b with h1 | h1 | h1 | h1 | h1 | h1
    · simp [h1]
    · simp [h1]
    · simp [h1]
    · simp [h1]
    · subst h1
      cases s with
      | nil => simp [pChar_escape_end] at h
      | cons c s =>
        by_cases hc : c ∈ reserved
        · simp [pChar_escape s hc] at h
        · rw [pChar_escape_invalid s hc] at h
          simp only [Exec.ret.injEq, Prod.mk.injEq, Option.some.injEq] at h
          have := congrArg List.head? h.2.2
          simp [lit] at this
    · simp [pChar_plain s h1] at h

theorem isCause_ne_missing {e : Str} (h : IsCause e) (ch : Str) :
    e ≠ lit "Unexpected special character '" ++ ch ++ lit "', missing escaping." := by
  intro he
  have hh := congrArg List.head? he
  rcases h with ⟨x, h⟩ | h | h <;> subst h <;> simp [lit] at hh

theorem pToken_error {rec : Str → Exec PResult} {b : Nat} {s r e : Str} {t : Token}
    (hb : b ≠ 41)
    (hrec : ∀ t2 r2 e2, rec s = .ret (t2, r2, some e2) → IsCause e2)
    (hstop : ∀ t2 r2, rec s = .ret (t2, r2, none) → r2 = [] ∨ ∃ w, r2 = 41 :: w)
    (h : pToken rec (b :: s) = .ret (t, r, some e)) : IsCause e := by
  have hname : ∀ s2 : Str, ∀ n2 r2 e2, pName s2 = .ret (n2, r2, some e2) → IsCause e2 := by
    intro s2 n2 r2 e2 hn
    cases s2 with
    | nil => simp [pName_nil] at hn
    | cons c s2 =>
      by_cases hc : isNameByte c = true
      · simp [pName_cons_name s2 hc] at hn
      · simp only [pName_cons_not s2 (by simpa using hc), Exec.ret.injEq, Prod.mk.injEq,
          Option.some.injEq] at hn
        exact Or.inl ⟨c, hn.2.2.symm⟩
  rcases byte_cases b with h1 | h1 | h1 | h1 | h1 | h1
  · subst h1
    rw [pToken_colon] at h
    rcases h2 : pName s with ⟨name, s2, _ | err⟩ | _ | _ <;> rw [h2] at h <;> simp at h
    rw [← h.2.2]
    exact hname s _ _ _ h2
  · subst h1
    rw [pToken_star] at h
    rcases h2 : pName s with ⟨name, s2, _ | err⟩ | _ | _ <;> rw [h2] at h <;> simp at h
    rw [← h.2.2]
    exact hname s _ _ _ h2
  · subst h1
    rw [pToken_open] at h
    rcases h2 : rec s with ⟨t2, s2, _ | err⟩ | _ | _ <;> rw [h2] at h
    · rcases hstop t2 s2 h2 with h3 | ⟨w, h3⟩
      · subst h3
        simp only [pExpect_nil, Exec.ret.injEq, Prod.mk.injEq, Option.some.injEq] at h
        rw [← h.2.2]
        exact Or.inr (Or.inl rfl)
      · subst h3
        simp [pExpect_cons_self] at h
    · simp only [Exec.ret.injEq, Prod.mk.injEq, Option.some.injEq] at h
      rw [← h.2.2]
      exact hrec t2 s2 err h2
    · simp at h
    · simp at h
  · exact absurd h1 hb
  · subst h1
    cases s with
    | nil => simp [pToken_escape_end] at h
    | cons c s =>
      by_cases hc : c ∈ reserved
      · simp [pToken_escape rec s hc] at h
      · simp only [pToken_escape_invalid rec s hc, Exec.ret.injEq, Prod.mk.injEq,
          Option.some.injEq] at h
        rw [← h.2.2]
        exact Or.inr (Or.inr rfl)
  · simp [pToken_plain rec s h1] at h

theorem loop_error (n : Nat) :
    ∀ (s : Str) (tokens : List Token) (t : Token) (r e : Str),
    pExprGroupLoop n s tokens = .ret (t, r, some e) → IsCause e := by
  induction n with
  | zero => intro s tokens t r e h; simp [pExprGroupLoop] at h
  | succ n ih =>
    intro s tokens t r e h
    cases s with
    | nil => simp [loop_nil] at h
    | cons b s =>
      by_cases hb : b = 41
      · subst hb; simp [loop_close] at h
      · rw [loop_step n s tokens hb] at h
        rcases h2 : pToken (fun str => pExprGroupLoop n str []) (b :: s)
          with ⟨t2, s2, _ | err⟩ | _ | _ <;> rw [h2] at h
        · exact ih s2 _ t r e h
        · simp only [Exec.ret.injEq, Prod.mk.injEq, Option.some.injEq] at h
          rw [← h.2.2]
          exact pToken_error hb (fun t3 r3 e3 h3 => ih s [] t3 r3 e3 h3)
            (fun t3 r3 h3 => (loop_stops_at_close n s [] t3 r3 h3).1) h2
        · simp at h
        · simp at h

theorem Parse_error_shape {str msg : Str} {t : Token} (h : Parse str = .ret (t, some msg)) :
    ∃ p e, msg = lit "strexp parse error: after '" ++ p ++ lit "': " ++ e
      ∧ (IsCause e ∨ e = lit "Unmatched ')'.") := by
  unfold Parse at h
  rcases hr : pExprGroup (str.length + 1) str with ⟨t2, s2, _ | err⟩ | _ | _ <;> rw [hr] at h
  · cases s2 with
    | nil => simp at h
    | cons b s2 =>
      have hb : (((b :: s2).length != 0) = true) := by simp
      simp only [Option.isNone_none, Bool.true_and, hb, if_true] at h
      rcases hp : slice str 0 (str.length - (b :: s2).length) with _ | p <;> rw [hp] at h
      · simp at h
      · simp only [Exec.ret.injEq, Prod.mk.injEq, Option.some.injEq] at h
        exact ⟨p, _, h.2.symm, Or.inr rfl⟩
  · simp only [Option.isNone_some, Bool.false_and, Bool.false_eq_true, if_false] at h
    rcases hp : slice str 0 (str.length - s2.length) with _ | p <;> rw [hp] at h
    · simp at h
    · simp only [Exec.ret.injEq, Prod.mk.injEq, Option.some.injEq] at h
      exact ⟨p, _, h.2.symm, Or.inl (loop_error _ _ _ _ _ _ hr)⟩
  · simp at h
  · simp at h

theorem cause_ending {e : Str} (h : IsCause e ∨ e = lit "Unmatched ')'.") :
    ∃ pre x, e = pre ++ [x, 46] ∧ x ≠ 103 := by
  rcases h with (⟨x, h⟩ | h | h) | h
  · refine ⟨lit "unexpected character: '" ++ [x] ++ lit "', expected identifie", 114, ?_,
      by decide⟩
    rw [h, List.append_assoc _ _ [114, 46]]
    rfl
  · exact ⟨lit "unexpected end, expected ')", 39, by rw [h]; rfl, by decide⟩
  · exact ⟨lit "Invalid escape-sequence '\\', expected one of '\\(', '\\)', '\\*', '\\:' or '\\\\",
      39, by rw [h]; rfl, by decide⟩
  · exact ⟨lit "Unmatched ')", 39, by rw [h]; rfl, by decide⟩

/-! ## The claims -/

/-- C1 (code defect): on the four bytes `a \ ( b` the parser returns three
literals, but the literal of the escape sequence `\(` holds the empty string
`str[1:1]` and not the escaped character `(`. -/
theorem C1_escape_literal_is_empty :
    Parse (lit "a\\(b")
      = .ret (.tList [.tChar (lit "a"), .tChar (lit ""), .tChar (lit "b")], none) := by
  rfl

/-- C2 (code defect): the name `A` is made of a character of `[A-Za-z_]`, but
`pName` tests `str[0] > 65`, which leaves out the byte 65 (`A`), so `:A` and
`*A` are rejected with an "expected identifier" error. -/
theorem C2_upper_A_rejected :
    Parse (lit ":A") = .ret (.tList [], some (lit
      "strexp parse error: after ':A': unexpected character: 'A', expected identifier."))
    ∧ Parse (lit "*A") = .ret (.tList [], some (lit
      "strexp parse error: after '*A': unexpected character: 'A', expected identifier.")) := by
  exact ⟨rfl, rfl⟩

/-- C3 (code defect): on an input that ends right after a `:` or `*` which
starts a token, `pName` evaluates `str[0:1]` on the empty string and `Parse`
panics instead of returning an "expected identifier" error. -/
theorem C3_name_at_end_panics :
    Parse (lit ":") = .panic ∧ Parse (lit "*") = .panic
    ∧ Parse (lit "ab:") = .panic ∧ Parse (lit "(*") = .panic := by
  exact ⟨rfl, rfl, rfl, rfl⟩

/-- C4 (counterexample): the valid tree `tList [tParam a, tChar b]` renders as
`:ab`, which parses to the single parameter `ab`; without requirements and
separators the fragments are `(?<ab>.+)` and `(?<a>.+)b`. -/
theorem C4_round_trip_counterexample :
    (Token.tList [.tParam (lit "a"), .tChar (lit "b")]).valid = true
    ∧ (Token.tList [.tParam (lit "a"), .tChar (lit "b")]).String = .ret (lit ":ab")
    ∧ Parse (lit ":ab") = .ret (.tList [.tParam (lit "ab")], none)
    ∧ (Token.tList [.tParam (lit "ab")]).RegExpFragment ⟨fun _ => none, []⟩ = lit "(?<ab>.+)"
    ∧ (Token.tList [.tParam (lit "a"), .tChar (lit "b")]).RegExpFragment ⟨fun _ => none, []⟩
        = lit "(?<a>.+)b"
    ∧ lit "(?<ab>.+)" ≠ lit "(?<a>.+)b" := by
  refine ⟨rfl, rfl, rfl, rfl, rfl, by decide⟩

/-- C4 (amended): for every tree of lists, groups, parameters and globs whose
names are not empty and are read back by `pName`, and literals of one
character that is not reserved, in which no parameter or glob is directly
followed in the rendering by a character of `[A-Za-z_]`, the rendering
`t.String()` is returned, `Parse` of it returns a token, and that token has
the fragment of `t` for every configuration. -/
theorem C4_round_trip (t : Token) (h : t.validBefore [] = true) :
    ∃ s t2, t.String = .ret s ∧ Parse s = .ret (t2, none)
      ∧ ∀ c : StrExpConfig, t2.RegExpFragment c = t.RegExpFragment c := by
  obtain ⟨s, hs⟩ := String_of_validBefore t [] h
  obtain ⟨n, hn⟩ := roundTrip_token t [] s h hs [] (.tList t.flatten, [], none) 1
    (by simp [loop_nil])
  rw [List.append_nil] at hn
  refine ⟨s, .tList t.flatten, hs, ?_, ?_⟩
  · rw [Parse_ok_iff]
    exact loop_of_fuel hn (Nat.lt_succ_self _)
  · intro c
    simp only [Token.RegExpFragment]
    exact fragment_flatten c t

/-- Witness of C4: the tree of `:id/(*rest)`. -/
theorem C4_round_trip_witness :
    (Token.tList [.tParam (lit "id"), .tChar (lit "/"),
        .tGroup (.tList [.tGlob (lit "rest")])]).validBefore [] = true
    ∧ ∃ s t2, (Token.tList [.tParam (lit "id"), .tChar (lit "/"),
        .tGroup (.tList [.tGlob (lit "rest")])]).String = .ret s
      ∧ Parse s = .ret (t2, none)
      ∧ ∀ c : StrExpConfig, t2.RegExpFragment c
          = (Token.tList [.tParam (lit "id"), .tChar (lit "/"),
              .tGroup (.tList [.tGlob (lit "rest")])]).RegExpFragment c :=
  ⟨rfl, C4_round_trip _ rfl⟩

/-- C5 (code defect): for `u = a` and `v = \x` the message of `Parse (u + v)`
reports the whole input `a\x` after `after`, not the consumed prefix `a`,
because `pExprGroup` returns the empty remainder with every error. -/
theorem C5_error_prefix_is_whole_input :
    Parse (lit "a\\x") = .ret (.tList [], some (lit "strexp parse error: after 'a\\x': "
      ++ lit "Invalid escape-sequence '\\', expected one of '\\(', '\\)', '\\*', '\\:' or '\\\\'."))
    ∧ lit "a\\x" ≠ lit "a" := by
  exact ⟨rfl, by decide⟩

/-- C6: `hasPattern n` is true exactly when `requirements` has an entry for
`n`; `patternForName n` is that entry when there is one, otherwise
`[^` + separators + `]+` when `separators` is not empty, otherwise `.+`. -/
theorem C6_hasPattern_patternForName (c : StrExpConfig) (n : Str) :
    (c.hasPattern n = true ↔ ∃ p, c.requirements n = some p)
    ∧ c.patternForName n =
        (match c.requirements n with
         | some p => p
         | none => if c.separators ≠ [] then lit "[^" ++ c.separators ++ lit "]+" else lit ".+")
    := by
  constructor
  · simp [StrExpConfig.hasPattern, Option.isSome_iff_exists]
  · unfold StrExpConfig.patternForName
    cases c.requirements n with
    | some p => rfl
    | none =>
      cases hs : c.separators with
      | nil => simp
      | cons b s => simp

/-- C7: without an entry for `n` in `requirements` a Glob renders as
`(?<n>.+)` whatever the separators are, and a Parameter renders as
`(?<n>[^SEPS]+)` when the separators `SEPS` are not empty; with an entry `p`
both render as `(?<n>` + p + `)`. -/
theorem C7_param_glob_asymmetry (c : StrExpConfig) (n : Str) :
    (c.requirements n = none →
      (Token.tGlob n).RegExpFragment c = lit "(?<" ++ n ++ lit ">.+)")
    ∧ (c.requirements n = none → c.separators ≠ [] →
      (Token.tParam n).RegExpFragment c
        = lit "(?<" ++ n ++ lit ">[^" ++ c.separators ++ lit "]+)")
    ∧ (∀ p, c.requirements n = some p →
      (Token.tParam n).RegExpFragment c = lit "(?<" ++ n ++ lit ">" ++ p ++ lit ")"
      ∧ (Token.tGlob n).RegExpFragment c = lit "(?<" ++ n ++ lit ">" ++ p ++ lit ")") := by
  have e1 : lit ">" ++ lit ".+" ++ lit ")" = lit ">.+)" := rfl
  have e2 : lit ">" ++ lit "[^" = lit ">[^" := rfl
  have e3 : lit "]+" ++ lit ")" = lit "]+)" := rfl
  refine ⟨?_, ?_, ?_⟩
  · intro h
    simp only [Token.RegExpFragment, StrExpConfig.hasPattern, StrExpConfig.patternForName, h,
      Option.isSome_none, Bool.not_false, if_true, List.append_assoc]
    rw [← e1]; simp only [List.append_assoc]
  · intro h hs
    have hl : c.separators.length > 0 := List.length_pos.mpr hs
    simp only [Token.RegExpFragment, StrExpConfig.patternForName, h, hl, if_true,
      List.append_assoc]
    rw [← e2, ← e3]; simp only [List.append_assoc]
  · intro p h
    simp [Token.RegExpFragment, StrExpConfig.hasPattern, StrExpConfig.patternForName, h]

/-- Witness of C7: the separators `/` without requirements, and the
requirement `[0-9]+` for `id`. -/
theorem C7_param_glob_asymmetry_witness :
    (Token.tGlob (lit "rest")).RegExpFragment ⟨fun _ => none, lit "/"⟩ = lit "(?<rest>.+)"
    ∧ (Token.tParam (lit "id")).RegExpFragment ⟨fun _ => none, lit "/"⟩ = lit "(?<id>[^/]+)"
    ∧ (Token.tGlob (lit "id")).RegExpFragment ⟨fun _ => some (lit "[0-9]+"), lit "/"⟩
        = lit "(?<id>[0-9]+)" :=
  ⟨(C7_param_glob_asymmetry ⟨fun _ => none, lit "/"⟩ (lit "rest")).1 rfl,
   (C7_param_glob_asymmetry ⟨fun _ => none, lit "/"⟩ (lit "id")).2.1 rfl (by decide),
   ((C7_param_glob_asymmetry ⟨fun _ => some (lit "[0-9]+"), lit "/"⟩ (lit "id")).2.2
      (lit "[0-9]+") rfl).2⟩

/-- C8: if `Parse e` returns the token `t`, then `Parse ("(" + e + ")")`
returns the `tList` of the single `tGroup` whose item is `t`, `t` is a `tList`,
and the fragment of the result is `(?:` + fragment of `t` + `)?` for every
configuration. -/
theorem C8_grouping (e : Str) (t : Token) (h : Parse e = .ret (t, none)) :
    Parse (lit "(" ++ e ++ lit ")") = .ret (.tList [.tGroup t], none)
    ∧ (∃ items, t = .tList items)
    ∧ ∀ c : StrExpConfig, (Token.tList [.tGroup t]).RegExpFragment c
        = lit "(?:" ++ t.RegExpFragment c ++ lit ")?" := by
  rw [Parse_ok_iff] at h
  unfold pExprGroup at h
  refine ⟨?_, ?_, ?_⟩
  · rw [Parse_ok_iff]
    unfold pExprGroup
    have h1 := loop_append_close _ [] e [] t [] h
    have h2 : pExprGroupLoop (e.length + 2) (e ++ [41]) [] = .ret (t, [41], none) := by
      rw [loop_mono _ _ _ (by rw [h1]; simp)]
      simpa using h1
    have es : lit "(" ++ e ++ lit ")" = 40 :: (e ++ [41]) := by simp [lit_open, lit_close]
    have hlen : (40 :: (e ++ [41])).length + 1 = (e.length + 2) + 1 := by simp
    rw [es, hlen, loop_step _ _ _ (by decide), pToken_open]
    rw [h2]
    simp only [pExpect_cons_self]
    simp [loop_nil]
  · obtain ⟨_, items, hi⟩ := loop_stops_at_close _ _ _ _ _ h
    exact ⟨items, by simpa using hi⟩
  · intro c
    simp [Token.RegExpFragment, RegExpFragmentItems]

/-- Witness of C8: `e = :id`, so that `(:id)` parses to
`tList [tGroup (tList [tParam id])]`. -/
theorem C8_grouping_witness :
    Parse (lit "(" ++ lit ":id" ++ lit ")")
      = .ret (.tList [.tGroup (.tList [.tParam (lit "id")])], none) :=
  (C8_grouping (lit ":id") (.tList [.tParam (lit "id")]) rfl).1

/-- C9: if `Parse u` returns a token, then for every text `w` the call
`Parse (u + ")" + w)` returns the error
`strexp parse error: after '` + u + `': Unmatched ')'.`; and whenever
`pExprGroup`, called by `Parse`, returns without error a remainder that is not
empty, that remainder begins with `)`. -/
theorem C9_unmatched_close (u w : Str) (t : Token) (h : Parse u = .ret (t, none)) :
    Parse (u ++ lit ")" ++ w) = .ret (.tList [],
      some (lit "strexp parse error: after '" ++ u ++ lit "': Unmatched ')'."))
    ∧ ∀ (str s : Str) (t2 : Token), pExprGroup (str.length + 1) str = .ret (t2, s, none) →
        s ≠ [] → ∃ r, s = lit ")" ++ r := by
  rw [Parse_ok_iff] at h
  unfold pExprGroup at h
  constructor
  · have h1 := loop_append_close _ w u [] t [] h
    have e : u ++ lit ")" ++ w = u ++ 41 :: w := by simp [lit_close]
    have hle : u.length + 1 ≤ (u ++ 41 :: w).length + 1 := by simp
    have h2 := loop_mono_le (u ++ 41 :: w) [] hle (by rw [h1]; simp)
    rw [h1] at h2
    rw [e]
    have h3 := Parse_of_rest h2
    simpa using h3
  · intro str s t2 hs hne
    obtain ⟨h3, _⟩ := loop_stops_at_close _ _ _ _ _ hs
    rcases h3 with h3 | ⟨r, h3⟩
    · exact absurd h3 hne
    · exact ⟨r, by simp [h3, lit_close]⟩

/-- Witness of C9: `u = ab`, `w = c`. -/
theorem C9_unmatched_close_witness :
    Parse (lit "ab" ++ lit ")" ++ lit "c") = .ret (.tList [],
      some (lit "strexp parse error: after '" ++ lit "ab" ++ lit "': Unmatched ')'.")) :=
  (C9_unmatched_close (lit "ab") (lit "c") (.tList [.tChar (lit "a"), .tChar (lit "b")]) rfl).1

/-- C10: if `Parse u` returns a token, then `Parse ("(" + u)` returns an error
whose cause is `unexpected end, expected ')'.`. -/
theorem C10_unclosed_group (u : Str) (t : Token) (h : Parse u = .ret (t, none)) :
    Parse (lit "(" ++ u) = .ret (.tList [],
      some (lit "strexp parse error: after '" ++ (lit "(" ++ u) ++ lit "': "
        ++ lit "unexpected end, expected ')'.")) := by
  rw [Parse_ok_iff] at h
  unfold pExprGroup at h
  have h2 : pExprGroup ((lit "(" ++ u).length + 1) (lit "(" ++ u)
      = .ret (.tList [], [], some (lit "unexpected end, expected ')'.")) := by
    unfold pExprGroup
    have hlen : (lit "(" ++ u).length + 1 = (u.length + 1) + 1 := by simp [lit_open]
    rw [hlen, lit_open]
    simp only [List.singleton_append]
    rw [loop_step _ _ _ (by decide), pToken_open]
    simp only [h, pExpect_nil]
    rfl
  rw [Parse_of_error h2]

/-- Witness of C10: `u` empty, the input `(`. -/
theorem C10_unclosed_group_witness :
    Parse (lit "(" ++ []) = .ret (.tList [],
      some (lit "strexp parse error: after '" ++ (lit "(" ++ []) ++ lit "': "
        ++ lit "unexpected end, expected ')'.")) :=
  C10_unclosed_group [] (.tList []) rfl

/-- C11: if a token starts with a backslash followed by a byte that is not
reserved, after a text of tokens read, `Parse` returns an error whose cause is
the `Invalid escape-sequence` error of `pChar`. -/
theorem C11_invalid_escape (p w : Str) (c : Nat) (hp : TokensRead p) (hc : c ∉ reserved) :
    Parse (p ++ lit "\\" ++ c :: w) = .ret (.tList [],
      some (lit "strexp parse error: after '" ++ (p ++ lit "\\" ++ c :: w) ++ lit "': "
        ++ lit "Invalid escape-sequence '\\', expected one of '\\(', '\\)', '\\*', '\\:' or '\\\\'."))
    := by
  have e : p ++ lit "\\" ++ c :: w = p ++ (92 :: c :: w) := by
    simp [show lit "\\" = [92] from rfl]
  rw [e]
  apply Parse_tokensRead_error _ _ (by simp [List.takeWhile_cons, isNameByte]) _ p hp
  intro items
  refine ⟨1, ?_⟩
  rw [loop_step _ _ _ (by decide), pToken_escape_invalid _ _ hc]
  rfl

/-- Witness of C11: the two bytes `\x`, and `\x` inside the open group of `a(b`. -/
theorem C11_invalid_escape_witness :
    Parse ([] ++ lit "\\" ++ 120 :: []) = .ret (.tList [],
      some (lit "strexp parse error: after '" ++ ([] ++ lit "\\" ++ 120 :: []) ++ lit "': "
        ++ lit "Invalid escape-sequence '\\', expected one of '\\(', '\\)', '\\*', '\\:' or '\\\\'."))
    ∧ Parse (lit "a" ++ lit "(" ++ lit "b" ++ lit "\\" ++ 120 :: []) = .ret (.tList [],
      some (lit "strexp parse error: after '"
        ++ (lit "a" ++ lit "(" ++ lit "b" ++ lit "\\" ++ 120 :: []) ++ lit "': "
        ++ lit "Invalid escape-sequence '\\', expected one of '\\(', '\\)', '\\*', '\\:' or '\\\\'."))
    :=
  ⟨C11_invalid_escape [] [] 120 (.tokens [] (.tList []) rfl) (by decide),
   C11_invalid_escape (lit "a" ++ lit "(" ++ lit "b") [] 120
    (.group (lit "a") (lit "b") (.tList [.tChar (lit "a")]) rfl
      (.tokens (lit "b") (.tList [.tChar (lit "b")]) rfl)) (by decide)⟩

/-- C12: for every text `e` without reserved characters `Parse e` returns the
`tList` of one `tChar` per character (byte) of `e`, in order, and for every
configuration its fragment is the concatenation, in order, of `QuoteMeta` of
each character. -/
theorem C12_literal_only (e : Str) (he : ∀ b ∈ e, b ∉ reserved) :
    Parse e = .ret (.tList (e.map (fun b => Token.tChar [b])), none)
    ∧ ∀ c : StrExpConfig, (Token.tList (e.map (fun b => Token.tChar [b]))).RegExpFragment c
        = (e.map (fun b => QuoteMeta [b])).flatten := by
  constructor
  · rw [Parse_ok_iff]
    unfold pExprGroup
    rw [loop_plain e he _ _ (Nat.lt_succ_self _)]
    simp
  · intro c
    simp only [Token.RegExpFragment]
    exact fragment_plain e c

/-- Witness of C12: the text `a.b`, whose fragment is `a\.b`. -/
theorem C12_literal_only_witness :
    Parse (lit "a.b") = .ret (.tList ((lit "a.b").map (fun b => Token.tChar [b])), none)
    ∧ (Token.tList ((lit "a.b").map (fun b => Token.tChar [b]))).RegExpFragment
        ⟨fun _ => none, lit "/"⟩ = lit "a\\.b" :=
  ⟨(C12_literal_only (lit "a.b") (by decide)).1,
   ((C12_literal_only (lit "a.b") (by decide)).2 ⟨fun _ => none, lit "/"⟩).trans rfl⟩

/-- C13: for every tree that contains a `tParam` named `name` (the claim's
`id`) and every two configurations with equal separators and equal
requirements, except that the first maps `name` to `p1` and the second to
`p2` with `p1 ≠ p2`, the two fragments of the tree differ. -/
theorem C13_override_changes_fragment (t : Token) (name p1 p2 : Str) (c1 c2 : StrExpConfig)
    (ht : t.hasParam name = true)
    (hs : c1.separators = c2.separators)
    (ho : ∀ m, m ≠ name → c1.requirements m = c2.requirements m)
    (h1 : c1.requirements name = some p1) (h2 : c2.requirements name = some p2)
    (hp : p1 ≠ p2) :
    t.RegExpFragment c1 ≠ t.RegExpFragment c2 := by
  intro he
  have hu := uses_pos_of_hasParam name t ht
  have hl := fragment_length c1 c2 name p1 p2 hs ho h1 h2 t
  rw [he] at hl
  have hl2 : p1.length = p2.length := by
    have h3 : t.uses name * p2.length = t.uses name * p1.length := by omega
    exact (Nat.eq_of_mul_eq_mul_left hu h3).symm
  exact hp (fragment_eq_pattern c1 c2 name p1 p2 hs ho h1 h2 hl2 t he hu)

/-- Witness of C13: the tree of `/:id`, the separators `/`, and the
requirements `[0-9]+` and `[a-z]+` for `id`. -/
theorem C13_override_changes_fragment_witness :
    (Token.tList [.tChar (lit "/"), .tParam (lit "id")]).RegExpFragment
        ⟨fun n => if n = lit "id" then some (lit "[0-9]+") else none, lit "/"⟩
      ≠ (Token.tList [.tChar (lit "/"), .tParam (lit "id")]).RegExpFragment
        ⟨fun n => if n = lit "id" then some (lit "[a-z]+") else none, lit "/"⟩ :=
  C13_override_changes_fragment (.tList [.tChar (lit "/"), .tParam (lit "id")]) (lit "id")
    (lit "[0-9]+") (lit "[a-z]+") _ _ rfl rfl (fun m hm => by simp [hm]) (by simp) (by simp)
    (by decide)

/-- C14: with the engine as a function `E`: if `Parse` returns the error `e`,
`Compile` returns no pattern and the error `e`, whatever `E` is; if `Parse`
returns the token `t`, `Compile` returns `E ("^" + t.RegExpFragment(c) + "$")`. -/
theorem C14_compile {ρ : Type} (E : Str → Option ρ × Option Str) (text : Str)
    (c : StrExpConfig) :
    (∀ t e, Parse text = .ret (t, some e) → Compile E text c = .ret (none, some e))
    ∧ (∀ t, Parse text = .ret (t, none) →
        Compile E text c = .ret (E (lit "^" ++ t.RegExpFragment c ++ lit "$"))) := by
  constructor
  · intro t e h
    simp [Compile, h]
  · intro t h
    simp [Compile, h]

/-- Witness of C14: the text `)` with its parse error, and the text `:id`
with the separators `/`, for an engine that returns its argument. -/
theorem C14_compile_witness :
    Compile (fun s => (some s, none)) (lit ")") ⟨fun _ => none, lit "/"⟩
      = .ret (none, some (lit "strexp parse error: after '': Unmatched ')'."))
    ∧ Compile (fun s => (some s, none)) (lit ":id") ⟨fun _ => none, lit "/"⟩
      = .ret (some (lit "^(?<id>[^/]+)$"), none) :=
  ⟨(C14_compile (fun s => (some s, none)) (lit ")") ⟨fun _ => none, lit "/"⟩).1
      (.tList []) _ rfl,
   (C14_compile (fun s => (some s, none)) (lit ":id") ⟨fun _ => none, lit "/"⟩).2
      (.tList [.tParam (lit "id")]) rfl⟩

/-- C15: for every input on which `Parse` returns a token, the token is a
`tList`, the item of every `tGroup` in it is a `tList`, and every `tParam` and
`tGlob` in it has a name that is not empty and consists of ASCII letters and
underscores. -/
theorem C15_name_invariant (str : Str) (t : Token) (h : Parse str = .ret (t, none)) :
    (∃ items, t = .tList items) ∧ t.namesValid = true := by
  rw [Parse_ok_iff] at h
  unfold pExprGroup at h
  constructor
  · obtain ⟨_, items, hi⟩ := loop_stops_at_close _ _ _ _ _ h
    exact ⟨items, by simpa using hi⟩
  · exact loop_namesValid _ _ _ _ _ h rfl

/-- Witness of C15: the input `(:id(*rest))x`. -/
theorem C15_name_invariant_witness :
    (∃ items, Token.tList [.tGroup (.tList [.tParam (lit "id"),
        .tGroup (.tList [.tGlob (lit "rest")])]), .tChar (lit "x")] = .tList items)
    ∧ (Token.tList [.tGroup (.tList [.tParam (lit "id"),
        .tGroup (.tList [.tGlob (lit "rest")])]), .tChar (lit "x")]).namesValid = true :=
  C15_name_invariant (lit "(:id(*rest))x") _ rfl

/-- C16: if a token starts with `:` or `*` followed by a character `x` that is
not a letter or underscore, after a text of tokens read, `Parse` returns an
error with the cause `unexpected character: 'x', expected identifier.`, which
is neither the "missing escaping" nor the "Invalid escape-sequence" error of
`pChar`. -/
theorem C16_lookahead_dispatch (p w : Str) (d x : Nat) (hp : TokensRead p)
    (hd : d = 58 ∨ d = 42) (hx : isIdentByte x = false) :
    Parse (p ++ d :: x :: w) = .ret (.tList [],
      some (lit "strexp parse error: after '" ++ (p ++ d :: x :: w) ++ lit "': "
        ++ (lit "unexpected character: '" ++ [x] ++ lit "', expected identifier.")))
    ∧ (∀ ch : Str, lit "unexpected character: '" ++ [x] ++ lit "', expected identifier."
        ≠ lit "Unexpected special character '" ++ ch ++ lit "', missing escaping.")
    ∧ (∀ ch : Str, lit "unexpected character: '" ++ [x] ++ lit "', expected identifier."
        ≠ lit "Invalid escape-sequence '\\" ++ ch
          ++ lit "', expected one of '\\(', '\\)', '\\*', '\\:' or '\\\\'.") := by
  have hn := isNameByte_of_not_ident hx
  refine ⟨?_, ?_, ?_⟩
  · apply Parse_tokensRead_error _ _ _ _ p hp
    · rcases hd with hd | hd <;> subst hd <;> simp [List.takeWhile_cons, isNameByte]
    · intro items
      refine ⟨1, ?_⟩
      rcases hd with hd | hd <;> subst hd
      · rw [loop_step _ _ _ (by decide), pToken_colon, pName_cons_not _ hn]
      · rw [loop_step _ _ _ (by decide), pToken_star, pName_cons_not _ hn]
  · intro ch h
    have := congrArg List.head? h
    simp [lit] at this
  · intro ch h
    have := congrArg List.head? h
    simp [lit] at this

/-- Witness of C16: the input `:1`, and `*-` inside the open group of `a(`. -/
theorem C16_lookahead_dispatch_witness :
    Parse ([] ++ 58 :: 49 :: []) = .ret (.tList [],
      some (lit "strexp parse error: after '" ++ ([] ++ 58 :: 49 :: []) ++ lit "': "
        ++ (lit "unexpected character: '" ++ [49] ++ lit "', expected identifier.")))
    ∧ Parse (lit "a" ++ lit "(" ++ [] ++ 42 :: 45 :: []) = .ret (.tList [],
      some (lit "strexp parse error: after '" ++ (lit "a" ++ lit "(" ++ [] ++ 42 :: 45 :: [])
        ++ lit "': " ++ (lit "unexpected character: '" ++ [45] ++ lit "', expected identifier.")))
    :=
  ⟨(C16_lookahead_dispatch [] [] 58 49 (.tokens [] (.tList []) rfl) (Or.inl rfl) rfl).1,
   (C16_lookahead_dispatch (lit "a" ++ lit "(" ++ []) [] 42 45
      (.group (lit "a") [] (.tList [.tChar (lit "a")]) rfl (.tokens [] (.tList []) rfl))
      (Or.inr rfl) rfl).1⟩

/-- C17 (code defect): on an input that ends right after a backslash which
starts a token, `pChar` evaluates `str[1]` out of range and `Parse` panics
instead of returning an "unexpected end" error. -/
theorem C17_lone_backslash_panics :
    Parse (lit "\\") = .panic ∧ Parse (lit "ab\\") = .panic
    ∧ Parse (lit "(\\") = .panic := by
  exact ⟨rfl, rfl, rfl⟩

/-- C18: for every text `s` without a backslash, if `Parse s` returns the
token `t`, then `t.String()` is `s`. -/
theorem C18_parse_then_render (s : Str) (t : Token) (hs : 92 ∉ s)
    (h : Parse s = .ret (t, none)) : t.String = .ret s := by
  rw [Parse_ok_iff] at h
  unfold pExprGroup at h
  obtain ⟨cons, hc, hstr⟩ := loop_string _ s [] t [] [] h hs rfl
  rw [hstr, hc]
  simp

/-- Witness of C18: the text `/u(/:id)*rest`. -/
theorem C18_parse_then_render_witness :
    (Token.tList [.tChar (lit "/"), .tChar (lit "u"),
      .tGroup (.tList [.tChar (lit "/"), .tParam (lit "id")]),
      .tGlob (lit "rest")]).String = .ret (lit "/u(/:id)*rest") :=
  C18_parse_then_render (lit "/u(/:id)*rest") _ (by decide) rfl

/-- C19: if `pToken` returns a token on a non-empty text, the remainder is a
proper suffix of the text; and the fuel, which counts the iterations of the
loop of `pExprGroup` and the nested calls through `pGroup` together, is not
exhausted when it exceeds the length of the input, so that `Parse`, which
supplies `len(str) + 1`, always ends. -/
theorem C19_progress_termination :
    (∀ (n b : Nat) (s r : Str) (t : Token),
      pToken (pExprGroup n) (b :: s) = .ret (t, r, none) →
        (∃ cons, b :: s = (b :: cons) ++ r) ∧ r.length < (b :: s).length)
    ∧ (∀ (n : Nat) (str : Str), str.length < n → pExprGroup n str ≠ .fuel)
    ∧ (∀ str : Str, Parse str ≠ .fuel) := by
  refine ⟨?_, ?_, Parse_ne_fuel⟩
  · intro n b s r t h
    have hc := @pToken_consumed (pExprGroup n) b s r t
      (fun t2 r2 h2 => loop_consumed n s [] t2 r2 h2) h
    refine ⟨hc, ?_⟩
    obtain ⟨cons, hc⟩ := hc
    rw [hc]
    simp only [List.length_append, List.length_cons]
    omega
  · intro n str hn
    exact loop_total n str [] hn

/-- Witness of C19: `pToken` on `(a)b` returns the group of `a` and the
remainder `b`. -/
theorem C19_progress_termination_witness :
    (∃ cons, lit "(a)b" = (40 :: cons) ++ lit "b") ∧ (lit "b").length < (lit "(a)b").length :=
  C19_progress_termination.1 2 40 (lit "a)b") (lit "b") (.tGroup (.tList [.tChar (lit "a")])) rfl

/-- C20: the "missing escaping" branch of `pChar` is not reached through
`Parse`. The parser does not depend on what `pChar` does on the empty string
and on strings that begin with `(`, `)`, `*` or `:` (replacing `pChar` by any
`pc` that agrees with it elsewhere does not change `pExprGroup`), `pChar`
returns the "missing escaping" error only on strings that begin with one of
these four, no error of `pExprGroup` is that error, and no message of `Parse`
has it as its cause. -/
theorem C20_missing_escaping_unreachable :
    (∀ pc : Str → Exec PResult,
      (∀ b s, b ∉ [40, 41, 42, 58] → pc (b :: s) = pChar (b :: s)) →
      ∀ n str, pExprGroupLoopWith pc n str [] = pExprGroup n str)
    ∧ (∀ (str r ch : Str) (t : Token),
      pChar str = .ret (t, r,
        some (lit "Unexpected special character '" ++ ch ++ lit "', missing escaping.")) →
      ∃ b s, str = b :: s ∧ b ∈ [40, 41, 42, 58])
    ∧ (∀ (n : Nat) (str r e ch : Str) (t : Token),
      pExprGroup n str = .ret (t, r, some e) →
      e ≠ lit "Unexpected special character '" ++ ch ++ lit "', missing escaping.")
    ∧ (∀ (str p ch : Str) (t : Token),
      Parse str ≠ .ret (t, some (lit "strexp parse error: after '" ++ p ++ lit "': "
        ++ (lit "Unexpected special character '" ++ ch ++ lit "', missing escaping.")))) := by
  refine ⟨?_, ?_, ?_, ?_⟩
  · intro pc hpc n str
    exact loopWith_eq pc hpc n str []
  · intro str r ch t h
    exact pChar_missing h
  · intro n str r e ch t h
    exact isCause_ne_missing (loop_error n str [] t r e h) ch
  · intro str p ch t h
    obtain ⟨p2, e, hm, he⟩ := Parse_error_shape h
    obtain ⟨pre, x, hx, hne⟩ := cause_ending he
    have e1 : lit "', missing escaping." = lit "', missing escapin" ++ [103, 46] := rfl
    rw [hx, e1] at hm
    simp only [← List.append_assoc] at hm
    have := (List.append_inj' hm rfl).2
    simp only [List.cons.injEq, and_true] at this
    exact hne this.symm

/-- Witness of C20: a `pc` that panics where `pChar` reports "missing
escaping" gives the same result on `a(b):c`; and `pChar` reports it on `)`. -/
theorem C20_missing_escaping_unreachable_witness :
    pExprGroupLoopWith
        (fun str => match str with
          | [] => .panic
          | b :: s => if b ∈ [40, 41, 42, 58] then .panic else pChar (b :: s))
        7 (lit "a(b):c") []
      = pExprGroup 7 (lit "a(b):c")
    ∧ ∃ b s, lit ")" = b :: s ∧ b ∈ [40, 41, 42, 58] :=
  ⟨C20_missing_escaping_unreachable.1 _ (fun b s hb => by simp only [hb, if_false]) 7
      (lit "a(b):c"),
   C20_missing_escaping_unreachable.2.1 (lit ")") (lit ")") (lit ")") (.tList []) rfl⟩

end Strexp
